import Mathlib

/-!
# Split-pane layout engine of gdlv (`split.go`)

A shallow embedding of the panel tree of `split.go`: the description grammar
(`parsePanelDescr`, `panel.String`, `panel.serialize`) and the tree mutator
(`panel.split`, `panel.closeMyself`, `panel.closeChild`, `panel.idx`).

Modelling conventions.

* Panels live in a store: `Store.mem` is the list of all allocated `panel`
  values, a pointer `*panel` is `Option Nat` (`none` is `nil`, `some a` is the
  address `a`, an index into `Store.mem`), and `&panel{...}` appends to the list.
* A Go `string` used as a byte sequence (descriptions, names) is a `List Char`,
  one `Char` per byte.
* A run-time panic that is not recovered (nil dereference, index out of range
  on `in[0]`) makes the embedded function return `none`.
* Recursive traversals of the store take a fuel argument; `none` from
  `panel.serialize` means the fuel ran out.
* `math/rand` is a parameter `src : Nat → Nat`, the stream of raw values of the
  global generator; `Store.rnd` counts the values drawn so far.
-/

namespace Gdlv

/-- The Go type `panelKind` (a `string`).  `zero` is the zero value `""` of the
type, the other constructors are the four constants `"Full"`, `"Horizontal"`,
`"Vertical"` and `"Info"`. -/
inductive panelKind where
  | zero
  | fullPanelKind
  | splitHorizontalPanelKind
  | splitVerticalPanelKind
  | infoPanelKind
  deriving DecidableEq, Repr

export panelKind (fullPanelKind splitHorizontalPanelKind splitVerticalPanelKind infoPanelKind)

/-- The string value of a `panelKind`. -/
def panelKind.str : panelKind → String
  | .zero => ""
  | .fullPanelKind => "Full"
  | .splitHorizontalPanelKind => "Horizontal"
  | .splitVerticalPanelKind => "Vertical"
  | .infoPanelKind => "Info"

def infoCommand : String := "Command"
def infoListing : String := "Listing"
def infoDisassembly : String := "Disassembly"
def infoGoroutines : String := "Goroutines"
def infoStacktrace : String := "Stacktrace"
def infoLocals : String := "Locals"
def infoGlobal : String := "Globals"
def infoBps : String := "Breakpoints"
def infoThreads : String := "Threads"
def infoRegisters : String := "Registers"
def infoSources : String := "Sources"
def infoFuncs : String := "Functions"
def infoTypes : String := "Types"

/-- The slice `infoModes`. -/
def infoModes : List String :=
  [infoCommand, infoListing, infoDisassembly, infoGoroutines, infoStacktrace, infoLocals,
   infoGlobal, infoBps, infoThreads, infoRegisters, infoSources, infoFuncs, infoTypes]

/-- The entries of the map literal `codeToInfoMode`. -/
def codeToInfoModeEntries : List (Char × String) :=
  [('C', infoCommand), ('L', infoListing), ('D', infoDisassembly), ('G', infoGoroutines),
   ('S', infoStacktrace), ('l', infoLocals), ('g', infoGlobal), ('B', infoBps),
   ('r', infoRegisters), ('s', infoSources), ('f', infoFuncs), ('t', infoTypes),
   ('T', infoThreads)]

/-- The lookup `codeToInfoMode[c]`: a missing key gives the zero value `""`. -/
def codeToInfoMode (c : Char) : String :=
  match codeToInfoModeEntries.find? (fun e => e.1 == c) with
  | some e => e.2
  | none => ""

/-- The lookup `code, ok := infoModeToCode[n]` in the map filled by `init`
(`infoModeToCode[v] = k` for every entry `k, v` of `codeToInfoMode`; the values
of `codeToInfoMode` are pairwise distinct, so the iteration order is
immaterial).  `none` is `ok == false`. -/
def infoModeToCode (n : String) : Option Char :=
  (codeToInfoModeEntries.find? (fun e => e.2 == n)).map (fun e => e.1)

/-- The loop of `infoModeIdx` over the indices `i, i+1, ...` of the remaining modes. -/
def infoModeIdxFrom (n : String) : List String → Int → Int
  | [], _ => -1
  | m :: ms, i => if m = n then i else infoModeIdxFrom n ms (i + 1)

/-- `infoModeIdx`: the first index of `n` in `infoModes`, or `-1`. -/
def infoModeIdx (n : String) : Int := infoModeIdxFrom n infoModes 0

/-- `kind.Internal()`. -/
def panelKind.Internal : panelKind → Bool
  | .fullPanelKind => true
  | .splitHorizontalPanelKind => true
  | .splitVerticalPanelKind => true
  | _ => false

/-- The struct `panel`; `child0`, `child1` are `child[0]`, `child[1]`. -/
structure panel where
  kind : panelKind := panelKind.zero
  size : Int := 0
  infoMode : Int := 0
  child0 : Option Nat := none
  child1 : Option Nat := none
  parent : Option Nat := none
  name : List Char := []
  resize : Bool := false
  deriving DecidableEq, Repr

/-- The heap of panels together with the state of the random generator. -/
structure Store where
  mem : List panel
  rnd : Nat
  deriving DecidableEq, Repr

/-- Dereference of the address `a`. -/
def Store.get (st : Store) (a : Nat) : Option panel := st.mem[a]?

/-- Assignment through the address `a`. -/
def Store.put (st : Store) (a : Nat) (n : panel) : Store :=
  { st with mem := st.mem.set a n }

/-- The allocation `&panel{...}`: the new panel gets the next free address. -/
def Store.alloc (st : Store) (n : panel) : Nat × Store :=
  (st.mem.length, { st with mem := st.mem ++ [n] })

/-- The local `alphabet` of `randomname`. -/
def alphabet : List Char :=
  ['0', '1', '2', '3', '4', '5', '6', '7', '8', '9', 'a', 'b', 'c', 'd', 'e', 'f', 'g', 'h',
   'i', 'j', 'k', 'l', 'm', 'n', 'o', 'p', 'q', 'r', 's', 't', 'u', 'v', 'w', 'x', 'y', 'z',
   'A', 'B', 'C', 'D', 'E', 'F', 'G', 'H', 'I', 'J', 'K', 'L', 'M', 'N', 'O', 'P', 'Q', 'R',
   'S', 'T', 'U', 'V', 'W', 'X', 'Y', 'Z']

/-- `randomname()`: eight draws `alphabet[rand.Intn(len(alphabet))]`; the draw
number `k` of the generator gives `src k % len(alphabet)`. -/
def randomname (src : Nat → Nat) (st : Store) : List Char × Store :=
  ((List.range 8).map (fun i => alphabet.getD (src (st.rnd + i) % alphabet.length) '0'),
   { st with rnd := st.rnd + 8 })

/-- The test `in[i] < '0' || in[i] > '9'` of the digit loop, negated. -/
def isDigit (c : Char) : Bool := !(decide (c < '0') || decide (c > '9'))

/-- The value of a run of decimal digits, most significant first. -/
def digitsValue (ds : List Char) : Nat :=
  ds.foldl (fun acc c => acc * 10 + (c.toNat - '0'.toNat)) 0

/-- The call `size, _ := strconv.Atoi(ds)` of the Go standard library on a run
of decimal digits, for a 64-bit `int`: the value of the digits; `0` for the
empty run (a syntax error, discarded); the largest `int` when the value does
not fit (a range error, discarded). -/
def atoi (ds : List Char) : Int :=
  if ds = [] then 0
  else if digitsValue ds < 2 ^ 63 then (digitsValue ds : Int)
  else 2 ^ 63 - 1

/-- The verb `%d` of `fmt.Fprintf` applied to an `int`. -/
def fmtInt (n : Int) : List Char :=
  if n < 0 then '-' :: Nat.toDigits 10 n.natAbs else Nat.toDigits 10 n.toNat

/-- `parsePanelDescr(in, parent)`.  The fuel bounds the recursion depth; the
result is `none` when `in[0]` is read from an empty string (a panic). -/
def parsePanelDescrAux (src : Nat → Nat) :
    Nat → List Char → Option Nat → Store → Option (Nat × List Char × Store)
  | 0, _, _, _ => none
  | _ + 1, [], _, _ => none
  | fuel + 1, c :: tl, parent, st =>
    if c = '0' then
      -- `kind` is still the zero value of `var kind panelKind` here
      let (nm, st1) := randomname src st
      let (p, st2) := st1.alloc { kind := panelKind.zero, name := nm, parent := parent }
      match parsePanelDescrAux src fuel tl (some p) st2 with
      | none => none
      | some (c0, rest, st3) =>
        match st3.get p with
        | none => none
        | some n => some (p, rest, st3.put p { n with child0 := some c0 })
    else if c = '_' ∨ c = '|' then
      let kind := if c = '|' then splitVerticalPanelKind else splitHorizontalPanelKind
      let size := atoi (tl.takeWhile isDigit)
      let (nm, st1) := randomname src st
      let (p, st2) := st1.alloc { kind := kind, name := nm, size := size, parent := parent }
      let rest := tl.dropWhile isDigit
      match parsePanelDescrAux src fuel rest (some p) st2 with
      | none => none
      | some (c0, rest, st3) =>
        match st3.get p with
        | none => none
        | some n =>
          let st4 := st3.put p { n with child0 := some c0 }
          match parsePanelDescrAux src fuel rest (some p) st4 with
          | none => none
          | some (c1, rest, st5) =>
            match st5.get p with
            | none => none
            | some n => some (p, rest, st5.put p { n with child1 := some c1 })
    else
      let (nm, st1) := randomname src st
      let (p, st2) := st1.alloc
        { kind := infoPanelKind, name := nm, infoMode := infoModeIdx (codeToInfoMode c),
          parent := parent }
      some (p, tl, st2)

/-- `parsePanelDescr(in, parent)`: every call consumes at least one byte, so
`len(in) + 1` levels of recursion are always enough. -/
def parsePanelDescr (src : Nat → Nat) (inp : List Char) (parent : Option Nat) (st : Store) :
    Option (Nat × List Char × Store) :=
  parsePanelDescrAux src (inp.length + 1) inp parent st

/-- The values a recovered panic of `serialize` can carry. -/
inductive GoError where
  /-- the run-time error of `infoModes[p.infoMode]` with the index out of range -/
  | indexOutOfRange
  /-- the run-time error of a field access through a nil pointer -/
  | nilDereference
  /-- the value of `fmt.Errorf("could not convert info mode %s to a code", ...)` -/
  | noCode (mode : String)
  deriving DecidableEq, Repr

/-- `p.serialize(out)`: the bytes written so far are threaded through; a panic
is `Except.error`; `none` means the fuel ran out. -/
def panel.serialize (mem : List panel) :
    Nat → Option Nat → List Char → Option (Except GoError (List Char))
  | 0, _, _ => none
  | _ + 1, none, _ => some (.error .nilDereference)
  | fuel + 1, some a, out =>
    match mem[a]? with
    | none => some (.error .nilDereference)
    | some p =>
      match p.kind with
      | .fullPanelKind => panel.serialize mem fuel p.child0 (out ++ ['0'])
      | .splitHorizontalPanelKind =>
        match panel.serialize mem fuel p.child0 (out ++ '_' :: fmtInt p.size) with
        | some (.ok out1) => panel.serialize mem fuel p.child1 out1
        | r => r
      | .splitVerticalPanelKind =>
        match panel.serialize mem fuel p.child0 (out ++ '|' :: fmtInt p.size) with
        | some (.ok out1) => panel.serialize mem fuel p.child1 out1
        | r => r
      | .infoPanelKind =>
        if 0 ≤ p.infoMode ∧ p.infoMode < infoModes.length then
          match infoModeToCode (infoModes.getD p.infoMode.toNat "") with
          | some code => some (.ok (out ++ [code]))
          | none => some (.error (.noCode (infoModes.getD p.infoMode.toNat "")))
        else some (.error .indexOutOfRange)
      | .zero => some (.ok out)

/-- `p.String()`: the buffer and a nil error, or, when `serialize` panicked,
the recovered error with the named result `s` still empty. -/
def panel.String (mem : List panel) (fuel : Nat) (p : Option Nat) :
    Option (List Char × Option GoError) :=
  match panel.serialize mem fuel p [] with
  | none => none
  | some (.ok out) => some (out, none)
  | some (.error e) => some ([], some e)

/-- `p.idx(child)`. -/
def panel.idx (p : panel) (child : Option Nat) : Int :=
  if p.child0 = child then 0 else if p.child1 = child then 1 else -1

/-- The assignment `p.child[idx] = c` for `idx` in `0, 1`. -/
def panel.setChild (p : panel) (idx : Int) (c : Option Nat) : panel :=
  if idx = 0 then { p with child0 := c } else { p with child1 := c }

/-- `p.split(kind)` for the panel at address `a`. -/
def panel.split (src : Nat → Nat) (st : Store) (a : Nat) (kind : panelKind) : Option Store :=
  match st.get a with
  | none => none
  | some p =>
    match p.parent with
    | none => some st
    | some par =>
      match st.get par with
      | none => none
      | some pp =>
        if pp.kind = fullPanelKind then
          let st1 := st.put par { pp with kind := kind }
          match st1.get a with
          | none => none
          | some p1 =>
            let (nm, st2) := randomname src st1
            let (c1, st3) := st2.alloc
              { kind := p1.kind, name := nm, infoMode := p1.infoMode, parent := p1.parent }
            match st3.get par with
            | none => none
            | some pp1 => some (st3.put par { pp1 with child1 := some c1 })
        else
          let idx := pp.idx (some a)
          if idx < 0 then some st
          else
            let (nm, st1) := randomname src st
            let (np, st2) := st1.alloc
              { kind := kind, name := nm, size := 0, parent := some par }
            match st2.get np with
            | none => none
            | some n =>
              let st3 := st2.put np { n with child0 := some a }
              let (nm1, st4) := randomname src st3
              let (c1, st5) := st4.alloc
                { kind := p.kind, name := nm1, infoMode := p.infoMode, parent := some np }
              match st5.get np with
              | none => none
              | some n1 =>
                let st6 := st5.put np { n1 with child1 := some c1 }
                match st6.get par with
                | none => none
                | some pp1 =>
                  let st7 := st6.put par (pp1.setChild idx (some np))
                  match st7.get a with
                  | none => none
                  | some p1 => some (st7.put a { p1 with parent := some np })

/-- `p.closeChild(idx)` for the panel at address `a`. -/
def panel.closeChild (st : Store) (a : Nat) (idx : Int) : Option Store :=
  match st.get a with
  | none => none
  | some p =>
    match p.parent with
    | none =>
      let p1 := { p with kind := fullPanelKind }
      some (st.put a (if idx = 0 then { p1 with child0 := p1.child1 } else p1))
    | some par =>
      match st.get par with
      | none => none
      | some pp =>
        let ownidx := pp.idx (some a)
        if ownidx < 0 then some st
        else
          let survivor := if idx = 0 then p.child1 else p.child0
          let st1 := st.put par (pp.setChild ownidx survivor)
          match survivor with
          | none => none
          | some s =>
            match st1.get s with
            | none => none
            | some sn => some (st1.put s { sn with parent := p.parent })

/-- `p.closeMyself()` for the panel at address `a`. -/
def panel.closeMyself (st : Store) (a : Nat) : Option Store :=
  match st.get a with
  | none => none
  | some p =>
    match p.parent with
    | none => some st
    | some par =>
      match st.get par with
      | none => none
      | some pp =>
        if pp.kind = fullPanelKind then some st
        else
          let idx := pp.idx (some a)
          if idx < 0 then some st
          else panel.closeChild st par idx

/-- The empty store. -/
def Store.empty : Store := { mem := [], rnd := 0 }

/-- Modelled from the spec: the single-leaf default tree, a `Full` root (address
`0`, no parent) wrapping one `Leaf` (address `1`); it is built outside
`split.go`.  The leaf's mode, the two names and the state of the generator are
parameters. -/
def defaultTree (mode : Int) (rootName leafName : List Char) (rnd : Nat) : Store :=
  { mem := [{ kind := fullPanelKind, child0 := some 1, name := rootName },
            { kind := infoPanelKind, infoMode := mode, parent := some 0, name := leafName }],
    rnd := rnd }

/-- The addresses of the panels visited from the pointer `p`, in the order in
which `serialize` and `update` walk the tree: a `Full` panel has the subtree
`child[0]`, a split has `child[0]` then `child[1]`, an `Info` panel has none. -/
def nodesFrom (mem : List panel) : Nat → Option Nat → List Nat
  | 0, _ => []
  | _ + 1, none => []
  | fuel + 1, some a =>
    match mem[a]? with
    | none => []
    | some p =>
      match p.kind with
      | .fullPanelKind => a :: nodesFrom mem fuel p.child0
      | .splitHorizontalPanelKind =>
        a :: (nodesFrom mem fuel p.child0 ++ nodesFrom mem fuel p.child1)
      | .splitVerticalPanelKind =>
        a :: (nodesFrom mem fuel p.child0 ++ nodesFrom mem fuel p.child1)
      | _ => [a]

/-- The panels of the tree below the root panel `root`; a tree in which no panel
occurs twice has no more levels than the store has panels. -/
def nodesOf (st : Store) (root : Nat) : List Nat :=
  nodesFrom st.mem st.mem.length (some root)

/-- Is the panel at address `a` of the given kind? -/
def hasKind (st : Store) (k : panelKind) (a : Nat) : Bool :=
  match st.get a with
  | some p => decide (p.kind = k)
  | none => false

/-- The leaves (`Info` panels) of the tree below `root`. -/
def leavesOf (st : Store) (root : Nat) : List Nat :=
  (nodesOf st root).filter (hasKind st infoPanelKind)

/-- The number of leaves reachable from `root`. -/
def countLeaves (st : Store) (root : Nat) : Nat := (leavesOf st root).length

/-- The number of `Full` panels reachable from `root`. -/
def countFull (st : Store) (root : Nat) : Nat :=
  ((nodesOf st root).filter (hasKind st fullPanelKind)).length

/-- The actions that change the tree: the two menu entries that call `split`,
the menu entry that calls `closeMyself`, and the writes of `update` to `size`
and `resize` of a split (layout resolution and gutter drag; the values come
from the toolkit and are arbitrary here). -/
inductive Op where
  | split (a : Nat) (kind : panelKind)
  | close (a : Nat)
  | resize (a : Nat) (size : Int) (flag : Bool)
  deriving DecidableEq, Repr

/-- The effect of one action. -/
def Op.run (src : Nat → Nat) (st : Store) : Op → Option Store
  | .split a kind => panel.split src st a kind
  | .close a => panel.closeMyself st a
  | .resize a size flag =>
    match st.get a with
    | none => none
    | some p => some (st.put a { p with size := size, resize := flag })

/-- An action is offered by the interface: `split` and `close` come from the
menu of a leaf that is currently in the tree, `split` with one of the two
axes; `size` is written on a split that is currently in the tree. -/
def Op.valid (st : Store) (root : Nat) : Op → Bool
  | .split a kind =>
    decide (a ∈ leavesOf st root) &&
      (decide (kind = splitHorizontalPanelKind) || decide (kind = splitVerticalPanelKind))
  | .close a => decide (a ∈ leavesOf st root)
  | .resize a _ _ =>
    decide (a ∈ nodesOf st root) &&
      (hasKind st splitHorizontalPanelKind a || hasKind st splitVerticalPanelKind a)

/-- Is the action a call of `split`? -/
def Op.isSplit : Op → Bool
  | .split _ _ => true
  | _ => false

/-- The actions one after the other. -/
def runOps (src : Nat → Nat) : Store → List Op → Option Store
  | st, [] => some st
  | st, op :: ops =>
    match op.run src st with
    | none => none
    | some st1 => runOps src st1 ops

/-- Every action of the sequence is offered in the state in which it is taken
(up to the first action that panics, if there is one). -/
def validRun (src : Nat → Nat) (root : Nat) : Store → List Op → Bool
  | _, [] => true
  | st, op :: ops =>
    op.valid st root &&
      match op.run src st with
      | none => true
      | some st1 => validRun src root st1 ops

/-- The shape of a tree in the store: which address holds which node. -/
inductive Shape where
  | leaf (a : Nat)
  | node (a : Nat) (l r : Shape)
  | full (a : Nat) (c : Shape)
  deriving DecidableEq, Repr

/-- The address of the top node. -/
def Shape.addr : Shape → Nat
  | .leaf a => a
  | .node a _ _ => a
  | .full a _ => a

/-- The addresses of all nodes, top first, first child before second. -/
def Shape.addrs : Shape → List Nat
  | .leaf a => [a]
  | .node a l r => a :: (l.addrs ++ r.addrs)
  | .full a c => a :: c.addrs

/-- The addresses of the leaves. -/
def Shape.leaves : Shape → List Nat
  | .leaf a => [a]
  | .node _ l r => l.leaves ++ r.leaves
  | .full _ c => c.leaves

/-- The addresses of the `Full` nodes. -/
def Shape.fulls : Shape → List Nat
  | .leaf _ => []
  | .node _ l r => l.fulls ++ r.fulls
  | .full a c => a :: c.fulls

/-- The number of levels. -/
def Shape.depth : Shape → Nat
  | .leaf _ => 1
  | .node _ l r => 1 + max l.depth r.depth
  | .full _ c => 1 + c.depth

/-- A shape with one hole: the path from the top node down to a subtree,
with the siblings passed on the way. -/
inductive Ctx where
  | hole
  | left (a : Nat) (c : Ctx) (r : Shape)
  | right (a : Nat) (l : Shape) (c : Ctx)
  | full (a : Nat) (c : Ctx)
  deriving DecidableEq, Repr

/-- The shape with the hole filled by `u`. -/
def Ctx.plug : Ctx → Shape → Shape
  | .hole, u => u
  | .left a c r, u => .node a (c.plug u) r
  | .right a l c, u => .node a l (c.plug u)
  | .full a c, u => .full a (c.plug u)

/-- The address of the top node when the hole is filled by a tree at address `x`. -/
def Ctx.top (x : Nat) : Ctx → Nat
  | .hole => x
  | .left a _ _ => a
  | .right a _ _ => a
  | .full a _ => a

/-- The parent of the hole, `par` being the parent of the top node. -/
def Ctx.holePar : Option Nat → Ctx → Option Nat
  | par, .hole => par
  | _, .left a c _ => c.holePar (some a)
  | _, .right a _ c => c.holePar (some a)
  | _, .full a c => c.holePar (some a)

/-- The addresses visited before the hole. -/
def Ctx.pre : Ctx → List Nat
  | .hole => []
  | .left a c _ => a :: c.pre
  | .right a l c => a :: (l.addrs ++ c.pre)
  | .full a c => a :: c.pre

/-- The addresses visited after the hole. -/
def Ctx.post : Ctx → List Nat
  | .hole => []
  | .left _ c r => c.post ++ r.addrs
  | .right _ _ c => c.post
  | .full _ c => c.post

/-- The store holds a tree of shape `t` whose top node has the parent pointer
`par`: a leaf is an `Info` panel; a split has two children, which point back
to it; a `Full` panel has the child `child[0]`, which points back to it. -/
def Sub (mem : List panel) : Option Nat → Shape → Prop
  | par, .leaf a => ∃ n, mem[a]? = some n ∧ n.kind = infoPanelKind ∧ n.parent = par
  | par, .node a l r =>
    ∃ n, mem[a]? = some n ∧
      (n.kind = splitHorizontalPanelKind ∨ n.kind = splitVerticalPanelKind) ∧ n.parent = par ∧
      n.child0 = some l.addr ∧ n.child1 = some r.addr ∧
      Sub mem (some a) l ∧ Sub mem (some a) r
  | par, .full a c =>
    ∃ n, mem[a]? = some n ∧ n.kind = fullPanelKind ∧ n.parent = par ∧
      n.child0 = some c.addr ∧ Sub mem (some a) c

/-- The store holds the nodes of the context `c`, the top one with the parent
pointer `par`, and the child slot at the hole points to the address `x`. -/
def SubCtx (mem : List panel) : Option Nat → Ctx → Nat → Prop
  | _, .hole, _ => True
  | par, .left a c r, x =>
    ∃ n, mem[a]? = some n ∧
      (n.kind = splitHorizontalPanelKind ∨ n.kind = splitVerticalPanelKind) ∧ n.parent = par ∧
      n.child0 = some (c.top x) ∧ n.child1 = some r.addr ∧
      SubCtx mem (some a) c x ∧ Sub mem (some a) r
  | par, .right a l c, x =>
    ∃ n, mem[a]? = some n ∧
      (n.kind = splitHorizontalPanelKind ∨ n.kind = splitVerticalPanelKind) ∧ n.parent = par ∧
      n.child0 = some l.addr ∧ n.child1 = some (c.top x) ∧
      Sub mem (some a) l ∧ SubCtx mem (some a) c x
  | par, .full a c, x =>
    ∃ n, mem[a]? = some n ∧ n.kind = fullPanelKind ∧ n.parent = par ∧
      n.child0 = some (c.top x) ∧ SubCtx mem (some a) c x

/-- The shape of a whole tree: the parentless root is the `Full` wrapper of a
tree of splits and leaves, or (after a split below the `Full` root, which turns
the root itself into the split) a split of two such trees. -/
def Shape.rooted : Shape → Prop
  | .leaf _ => False
  | .node _ l r => l.fulls = [] ∧ r.fulls = []
  | .full _ c => c.fulls = []

/-- The tree below `root` is well formed: it has a shape `t` with the root on
top, no panel occurs twice, and `Full` occurs at the root only. -/
def WellFormed (st : Store) (root : Nat) : Prop :=
  ∃ t : Shape, t.addr = root ∧ Sub st.mem none t ∧ t.addrs.Nodup ∧ t.rooted

/-- The content of a panel tree, without addresses and names. -/
inductive Descr where
  | leaf (mode : Int)
  | split (kind : panelKind) (size : Int) (l r : Descr)
  | full (c : Descr)
  deriving DecidableEq, Repr

/-- The pointer `p` leads to a tree with the content `d`: every node is a
panel of the store of the stated kind, a split (`Horizontal` or `Vertical`)
has two children and a `Full` panel has the child `child[0]`. -/
def Holds (mem : List panel) : Option Nat → Descr → Prop
  | p, .leaf m => ∃ a n, p = some a ∧ mem[a]? = some n ∧ n.kind = infoPanelKind ∧ n.infoMode = m
  | p, .split k sz l r =>
    ∃ a n, p = some a ∧ mem[a]? = some n ∧
      (k = splitHorizontalPanelKind ∨ k = splitVerticalPanelKind) ∧ n.kind = k ∧ n.size = sz ∧
      Holds mem n.child0 l ∧ Holds mem n.child1 r
  | p, .full c => ∃ a n, p = some a ∧ mem[a]? = some n ∧ n.kind = fullPanelKind ∧ Holds mem n.child0 c

/-- The modes of the leaves, in the order of the traversal. -/
def Descr.modes : Descr → List Int
  | .leaf m => [m]
  | .split _ _ l r => l.modes ++ r.modes
  | .full c => c.modes

/-- The sizes of the splits. -/
def Descr.sizes : Descr → List Int
  | .leaf _ => []
  | .split _ sz l r => sz :: (l.sizes ++ r.sizes)
  | .full c => c.sizes

/-- The tree has no `Full` node. -/
def Descr.noFull : Descr → Prop
  | .leaf _ => True
  | .split _ _ l r => l.noFull ∧ r.noFull
  | .full _ => False

/-- The number of levels. -/
def Descr.depth : Descr → Nat
  | .leaf _ => 1
  | .split _ _ l r => 1 + max l.depth r.depth
  | .full c => 1 + c.depth

/-- The description of a tree in the grammar of the layout: `0` and the
subtree for `Full`; `_` or `|`, the decimal size and the two subtrees for a
split; the code of its mode for a leaf. -/
def Descr.text : Descr → List Char
  | .leaf m => (infoModeToCode (infoModes.getD m.toNat "")).toList
  | .split k sz l r =>
    (if k = splitVerticalPanelKind then '|' else '_') :: (fmtInt sz ++ (l.text ++ r.text))
  | .full c => '0' :: c.text

/-- The mode is an index of the catalogue `infoModes`. -/
def modeOk (m : Int) : Prop := 0 ≤ m ∧ m < 13

instance (m : Int) : Decidable (modeOk m) := by unfold modeOk; infer_instance

/-- The postcondition of `p.split(kind)` for the leaf `p` at address `a`: the
parent of `p` is now a split `q` of kind `k`, with first child `p` (unchanged
but for its parent pointer) and second child a new leaf `c` with the mode of
`p`.  Below the `Full` root the split is the root itself, with its kind and
`child[1]` rewritten; otherwise it is a new panel of size `0` that takes the
slot of `p` in the former parent.  No other panel changes. -/
def SplitPost (st st1 : Store) (a : Nat) (k : panelKind) : Prop :=
  ∃ p par pp q qn c cn,
    st.get a = some p ∧ p.parent = some par ∧ st.get par = some pp ∧
    st1.get a = some { p with parent := some q } ∧
    st1.get q = some qn ∧ qn.kind = k ∧ qn.child0 = some a ∧ qn.child1 = some c ∧
    st.mem.length ≤ c ∧ st1.get c = some cn ∧
    cn.kind = infoPanelKind ∧ cn.infoMode = p.infoMode ∧ cn.child0 = none ∧ cn.child1 = none ∧
    cn.parent = some q ∧
    (pp.kind = fullPanelKind → q = par ∧ qn.child0 = pp.child0 ∧ qn.parent = pp.parent ∧
      qn.name = pp.name ∧ qn.infoMode = pp.infoMode ∧ qn.resize = pp.resize) ∧
    (pp.kind ≠ fullPanelKind → st.mem.length ≤ q ∧ qn.size = 0 ∧ qn.parent = some par ∧
      0 ≤ pp.idx (some a) ∧ st1.get par = some (pp.setChild (pp.idx (some a)) (some q))) ∧
    ∀ x, x < st.mem.length → x ≠ a → x ≠ par → st1.get x = st.get x

/-- The postcondition of `p.closeMyself()` for the leaf `p` at address `a`
whose parent `s` has itself a parent `g`: the slot of `s` in `g` holds the
former sibling `sib` of `p`, whose parent pointer is `g`; nothing else
changes. -/
def ClosePost (st st1 : Store) (a : Nat) : Prop :=
  ∃ p s sn g gn sib sibn,
    st.get a = some p ∧ p.parent = some s ∧ st.get s = some sn ∧ sn.parent = some g ∧
    st.get g = some gn ∧ (if sn.child0 = some a then sn.child1 else sn.child0) = some sib ∧
    st.get sib = some sibn ∧ 0 ≤ gn.idx (some s) ∧
    st1.get g = some (gn.setChild (gn.idx (some s)) (some sib)) ∧
    st1.get sib = some { sibn with parent := some g } ∧
    (∀ x, x ≠ g → x ≠ sib → st1.get x = st.get x) ∧
    st1.mem.length = st.mem.length ∧ st1.rnd = st.rnd

/-- The pointer `p` leads to a tree with the content `d` all of whose panels
have addresses from `lo` on. -/
def HoldsFrom (mem : List panel) (lo : Nat) : Option Nat → Descr → Prop
  | p, .leaf m =>
    ∃ a n, p = some a ∧ lo ≤ a ∧ mem[a]? = some n ∧ n.kind = infoPanelKind ∧ n.infoMode = m
  | p, .split k sz l r =>
    ∃ a n, p = some a ∧ lo ≤ a ∧ mem[a]? = some n ∧
      (k = splitHorizontalPanelKind ∨ k = splitVerticalPanelKind) ∧ n.kind = k ∧ n.size = sz ∧
      HoldsFrom mem lo n.child0 l ∧ HoldsFrom mem lo n.child1 r
  | p, .full c =>
    ∃ a n, p = some a ∧ lo ≤ a ∧ mem[a]? = some n ∧ n.kind = fullPanelKind ∧
      HoldsFrom mem lo n.child0 c

/-- A generator for the examples: every draw gives `0`. -/
def exampleSrc : Nat → Nat := fun _ => 0

/-- The default tree of the examples: one leaf showing the mode `Command`. -/
def exampleTree : Store := defaultTree 0 [] [] 0

/-- The tree `exampleTree` after `split` (horizontal) on its leaf: the root `0`
is the split of the leaves `1` and `2`. -/
def twoLeaves : Store :=
  { mem := [{ kind := splitHorizontalPanelKind, child0 := some 1, child1 := some 2 },
            { kind := infoPanelKind, parent := some 0 },
            { kind := infoPanelKind, parent := some 0, name := "00000000".toList }],
    rnd := 8 }

/-- The tree `twoLeaves` after `split` (vertical) on the leaf `1`: the root `0`
is the split of the vertical split `3` (of the leaves `1` and `4`) and of the
leaf `2`. -/
def threeLeaves : Store :=
  { mem := [{ kind := splitHorizontalPanelKind, child0 := some 3, child1 := some 2 },
            { kind := infoPanelKind, parent := some 3 },
            { kind := infoPanelKind, parent := some 0, name := "00000000".toList },
            { kind := splitVerticalPanelKind, child0 := some 1, child1 := some 4,
              parent := some 0, name := "00000000".toList },
            { kind := infoPanelKind, parent := some 3, name := "00000000".toList }],
    rnd := 24 }

end Gdlv

namespace Gdlv

/-! ### Shapes and contexts -/

theorem Shape.addr_mem_addrs (t : Shape) : t.addr ∈ t.addrs := by
  cases t <;> simp [Shape.addr, Shape.addrs]

theorem Shape.depth_le_length (t : Shape) : t.depth ≤ t.addrs.length := by
  induction t with
  | leaf a => simp [Shape.depth, Shape.addrs]
  | node a l r ihl ihr => simp [Shape.depth, Shape.addrs]; omega
  | full a c ih => simp [Shape.depth, Shape.addrs]; omega

theorem Sub.lookup {mem : List panel} {par : Option Nat} {t : Shape} (h : Sub mem par t) :
    ∀ a ∈ t.addrs, ∃ n, mem[a]? = some n := by
  induction t generalizing par with
  | leaf a =>
    obtain ⟨n, hn, -⟩ := h
    intro x hx
    simp only [Shape.addrs, List.mem_singleton] at hx
    exact ⟨n, hx ▸ hn⟩
  | node a l r ihl ihr =>
    obtain ⟨n, hn, -, -, -, -, hl, hr⟩ := h
    intro x hx
    simp only [Shape.addrs, List.mem_cons, List.mem_append] at hx
    rcases hx with hx | hx | hx
    · exact ⟨n, hx ▸ hn⟩
    · exact ihl hl x hx
    · exact ihr hr x hx
  | full a c ih =>
    obtain ⟨n, hn, -, -, -, hc⟩ := h
    intro x hx
    simp only [Shape.addrs, List.mem_cons] at hx
    rcases hx with hx | hx
    · exact ⟨n, hx ▸ hn⟩
    · exact ih hc x hx

theorem Sub.lt_length {mem : List panel} {par : Option Nat} {t : Shape} (h : Sub mem par t) :
    ∀ a ∈ t.addrs, a < mem.length := by
  intro a ha
  obtain ⟨n, hn⟩ := h.lookup a ha
  exact (List.getElem?_eq_some.mp hn).1

theorem Sub.top {mem : List panel} {par : Option Nat} {t : Shape} (h : Sub mem par t) :
    ∃ n, mem[t.addr]? = some n ∧ n.parent = par := by
  cases t with
  | leaf a => obtain ⟨n, hn, -, hp⟩ := h; exact ⟨n, hn, hp⟩
  | node a l r => obtain ⟨n, hn, -, hp, -⟩ := h; exact ⟨n, hn, hp⟩
  | full a c => obtain ⟨n, hn, -, hp, -⟩ := h; exact ⟨n, hn, hp⟩

/-- A tree is untouched by a change of the store outside its addresses. -/
theorem Sub.frame {mem mem1 : List panel} {t : Shape} :
    ∀ {par : Option Nat}, Sub mem par t → (∀ a ∈ t.addrs, mem1[a]? = mem[a]?) → Sub mem1 par t := by
  induction t with
  | leaf a =>
    intro par h hf
    obtain ⟨n, hn, hk, hp⟩ := h
    exact ⟨n, by rw [hf a (by simp [Shape.addrs]), hn], hk, hp⟩
  | node a l r ihl ihr =>
    intro par h hf
    obtain ⟨n, hn, hk, hp, h0, h1, hl, hr⟩ := h
    refine ⟨n, by rw [hf a (by simp [Shape.addrs]), hn], hk, hp, h0, h1, ?_, ?_⟩
    · exact ihl hl (fun x hx => hf x (by simp [Shape.addrs, hx]))
    · exact ihr hr (fun x hx => hf x (by simp [Shape.addrs, hx]))
  | full a c ih =>
    intro par h hf
    obtain ⟨n, hn, hk, hp, h0, hc⟩ := h
    refine ⟨n, by rw [hf a (by simp [Shape.addrs]), hn], hk, hp, h0, ?_⟩
    exact ih hc (fun x hx => hf x (by simp [Shape.addrs, hx]))

/-- The top node of a tree gets a new parent pointer. -/
theorem Sub.reparent {mem mem1 : List panel} {t : Shape} {par par1 : Option Nat}
    (h : Sub mem par t) (n : panel) (hn : mem[t.addr]? = some n)
    (h1 : mem1[t.addr]? = some { n with parent := par1 })
    (hf : ∀ a ∈ t.addrs, a ≠ t.addr → mem1[a]? = mem[a]?) (hnd : t.addrs.Nodup) :
    Sub mem1 par1 t := by
  cases t with
  | leaf a =>
    obtain ⟨m, hm, hk, -⟩ := h
    simp only [Shape.addr] at hn h1
    rw [hn] at hm; cases hm
    exact ⟨_, h1, hk, rfl⟩
  | node a l r =>
    obtain ⟨m, hm, hk, -, h0, hc1, hl, hr⟩ := h
    simp only [Shape.addr] at hn h1 hf
    rw [hn] at hm; cases hm
    simp only [Shape.addrs, List.nodup_cons, List.mem_append, not_or] at hnd
    refine ⟨_, h1, hk, rfl, h0, hc1, ?_, ?_⟩
    · exact hl.frame (fun x hx => hf x (by simp [Shape.addrs, hx])
        (fun e => hnd.1.1 (e ▸ hx)))
    · exact hr.frame (fun x hx => hf x (by simp [Shape.addrs, hx])
        (fun e => hnd.1.2 (e ▸ hx)))
  | full a c =>
    obtain ⟨m, hm, hk, -, h0, hc⟩ := h
    simp only [Shape.addr] at hn h1 hf
    rw [hn] at hm; cases hm
    simp only [Shape.addrs, List.nodup_cons] at hnd
    refine ⟨_, h1, hk, rfl, h0, ?_⟩
    exact hc.frame (fun x hx => hf x (by simp [Shape.addrs, hx]) (fun e => hnd.1 (e ▸ hx)))

theorem Ctx.plug_addr (c : Ctx) (u : Shape) : (c.plug u).addr = c.top u.addr := by
  cases c <;> simp [Ctx.plug, Ctx.top, Shape.addr]

theorem Ctx.plug_addrs (c : Ctx) (u : Shape) : (c.plug u).addrs = c.pre ++ u.addrs ++ c.post := by
  induction c with
  | hole => simp [Ctx.plug, Ctx.pre, Ctx.post]
  | left a c r ih => simp [Ctx.plug, Ctx.pre, Ctx.post, Shape.addrs, ih]
  | right a l c ih => simp [Ctx.plug, Ctx.pre, Ctx.post, Shape.addrs, ih]
  | full a c ih => simp [Ctx.plug, Ctx.pre, Ctx.post, Shape.addrs, ih]

theorem Ctx.plug_leaves_length (c : Ctx) (u v : Shape) :
    (c.plug u).leaves.length + v.leaves.length = (c.plug v).leaves.length + u.leaves.length := by
  induction c with
  | hole => simp [Ctx.plug]; omega
  | left a c r ih => simp [Ctx.plug, Shape.leaves]; omega
  | right a l c ih => simp [Ctx.plug, Shape.leaves]; omega
  | full a c ih => simp [Ctx.plug, Shape.leaves]; omega

theorem Ctx.plug_fulls_nil (c : Ctx) (u : Shape) (h : (c.plug u).fulls = []) : u.fulls = [] := by
  induction c with
  | hole => simpa [Ctx.plug] using h
  | left a c r ih =>
    simp only [Ctx.plug, Shape.fulls, List.append_eq_nil] at h
    exact ih h.1
  | right a l c ih =>
    simp only [Ctx.plug, Shape.fulls, List.append_eq_nil] at h
    exact ih h.2
  | full a c ih => simp [Ctx.plug, Shape.fulls] at h

theorem Ctx.plug_fulls_nil_of (c : Ctx) (u v : Shape) (h : (c.plug u).fulls = [])
    (hv : v.fulls = []) : (c.plug v).fulls = [] := by
  induction c with
  | hole => simpa [Ctx.plug] using hv
  | left a c r ih =>
    simp only [Ctx.plug, Shape.fulls, List.append_eq_nil] at h ⊢
    exact ⟨ih h.1, h.2⟩
  | right a l c ih =>
    simp only [Ctx.plug, Shape.fulls, List.append_eq_nil] at h ⊢
    exact ⟨h.1, ih h.2⟩
  | full a c ih => simp [Ctx.plug, Shape.fulls] at h

/-- A tree with a hole filled: the context and the filling hold separately. -/
theorem Sub_plug {mem : List panel} {c : Ctx} {u : Shape} :
    ∀ {par : Option Nat}, Sub mem par (c.plug u) ↔
      (SubCtx mem par c u.addr ∧ Sub mem (c.holePar par) u) := by
  induction c with
  | hole => intro par; simp [Ctx.plug, SubCtx, Ctx.holePar]
  | left a c r ih =>
    intro par
    simp only [Ctx.plug, Sub, SubCtx, Ctx.holePar, ih, Ctx.plug_addr]
    constructor
    · rintro ⟨n, hn, hk, hp, h0, h1, ⟨hc, hu⟩, hr⟩
      exact ⟨⟨n, hn, hk, hp, h0, h1, hc, hr⟩, hu⟩
    · rintro ⟨⟨n, hn, hk, hp, h0, h1, hc, hr⟩, hu⟩
      exact ⟨n, hn, hk, hp, h0, h1, ⟨hc, hu⟩, hr⟩
  | right a l c ih =>
    intro par
    simp only [Ctx.plug, Sub, SubCtx, Ctx.holePar, ih, Ctx.plug_addr]
    constructor
    · rintro ⟨n, hn, hk, hp, h0, h1, hl, ⟨hc, hu⟩⟩
      exact ⟨⟨n, hn, hk, hp, h0, h1, hl, hc⟩, hu⟩
    · rintro ⟨⟨n, hn, hk, hp, h0, h1, hl, hc⟩, hu⟩
      exact ⟨n, hn, hk, hp, h0, h1, hl, ⟨hc, hu⟩⟩
  | full a c ih =>
    intro par
    simp only [Ctx.plug, Sub, SubCtx, Ctx.holePar, ih, Ctx.plug_addr]
    constructor
    · rintro ⟨n, hn, hk, hp, h0, ⟨hc, hu⟩⟩
      exact ⟨⟨n, hn, hk, hp, h0, hc⟩, hu⟩
    · rintro ⟨⟨n, hn, hk, hp, h0, hc⟩, hu⟩
      exact ⟨n, hn, hk, hp, h0, ⟨hc, hu⟩⟩

/-- A context is untouched by a change of the store outside its addresses. -/
theorem SubCtx.frame_ctx {mem mem1 : List panel} {c : Ctx} {x : Nat} :
    ∀ {par : Option Nat}, SubCtx mem par c x →
      (∀ a ∈ c.pre ++ c.post, mem1[a]? = mem[a]?) → SubCtx mem1 par c x := by
  induction c with
  | hole => intro par _ _; trivial
  | left a c r ih =>
    intro par h hf
    obtain ⟨n, hn, hk, hp, h0, h1, hc, hr⟩ := h
    refine ⟨n, by rw [hf a (by simp [Ctx.pre]), hn], hk, hp, h0, h1, ?_, ?_⟩
    · exact ih hc (fun y hy => hf y (by
        simp only [List.mem_append] at hy
        simp only [Ctx.pre, Ctx.post, List.mem_append, List.mem_cons]
        tauto))
    · exact hr.frame (fun y hy => hf y (by simp [Ctx.pre, Ctx.post, hy]))
  | right a l c ih =>
    intro par h hf
    obtain ⟨n, hn, hk, hp, h0, h1, hl, hc⟩ := h
    refine ⟨n, by rw [hf a (by simp [Ctx.pre]), hn], hk, hp, h0, h1, ?_, ?_⟩
    · exact hl.frame (fun y hy => hf y (by simp [Ctx.pre, Ctx.post, hy]))
    · exact ih hc (fun y hy => hf y (by
        simp only [List.mem_append] at hy
        simp only [Ctx.pre, Ctx.post, List.mem_append, List.mem_cons]
        tauto))
  | full a c ih =>
    intro par h hf
    obtain ⟨n, hn, hk, hp, h0, hc⟩ := h
    refine ⟨n, by rw [hf a (by simp [Ctx.pre]), hn], hk, hp, h0, ?_⟩
    exact ih hc (fun y hy => hf y (by
        simp only [List.mem_append] at hy
        simp only [Ctx.pre, Ctx.post, List.mem_append, List.mem_cons]
        tauto))

theorem Ctx.top_of_ne_hole (c : Ctx) (hc : c ≠ .hole) (x y : Nat) : c.top x = c.top y := by
  cases c <;> simp_all [Ctx.top]

theorem Ctx.holePar_mem (c : Ctx) (hc : c ≠ .hole) :
    ∀ par : Option Nat, ∃ g, c.holePar par = some g ∧ g ∈ c.pre := by
  induction c with
  | hole => exact absurd rfl hc
  | left a c r ih =>
    intro par
    by_cases h : c = .hole
    · subst h; exact ⟨a, rfl, by simp [Ctx.pre]⟩
    · obtain ⟨g, hg, hm⟩ := ih h (some a)
      exact ⟨g, hg, by simp [Ctx.pre, hm]⟩
  | right a l c ih =>
    intro par
    by_cases h : c = .hole
    · subst h; exact ⟨a, rfl, by simp [Ctx.pre]⟩
    · obtain ⟨g, hg, hm⟩ := ih h (some a)
      exact ⟨g, hg, by simp [Ctx.pre, hm]⟩
  | full a c ih =>
    intro par
    by_cases h : c = .hole
    · subst h; exact ⟨a, rfl, by simp [Ctx.pre]⟩
    · obtain ⟨g, hg, hm⟩ := ih h (some a)
      exact ⟨g, hg, by simp [Ctx.pre, hm]⟩

/-- The child slot of the parent of the hole is redirected from `x` to `x1`. -/
theorem SubCtx.splice {mem mem1 : List panel} {c : Ctx} {x x1 g : Nat} {gn : panel} :
    ∀ {par : Option Nat}, SubCtx mem par c x → c ≠ .hole → (c.pre ++ x :: c.post).Nodup →
      c.holePar par = some g → mem[g]? = some gn →
      mem1[g]? = some (gn.setChild (gn.idx (some x)) (some x1)) →
      (∀ a ∈ c.pre ++ c.post, a ≠ g → mem1[a]? = mem[a]?) → SubCtx mem1 par c x1 := by
  induction c with
  | hole => intro par _ hc; exact absurd rfl hc
  | left a c r ih =>
    intro par h _ hnd hg hgn h1 hf
    obtain ⟨n, hn, hk, hp, h0, hc1, hc, hr⟩ := h
    simp only [Ctx.pre, Ctx.post, List.cons_append, List.nodup_cons, List.mem_append,
      List.mem_cons, not_or] at hnd
    by_cases hh : c = .hole
    · subst hh
      simp only [Ctx.holePar, Option.some.injEq] at hg
      subst hg
      rw [hn] at hgn; cases hgn
      simp only [Ctx.top] at h0
      refine ⟨_, h1, ?_, ?_, ?_, ?_, trivial, ?_⟩
      · simpa [panel.idx, panel.setChild, h0] using hk
      · simpa [panel.idx, panel.setChild, h0] using hp
      · simp [panel.idx, panel.setChild, h0, Ctx.top]
      · simpa [panel.idx, panel.setChild, h0] using hc1
      · refine hr.frame (fun y hy => hf y (by simp [Ctx.pre, Ctx.post, hy]) ?_)
        rintro rfl
        exact hnd.1.2.2.2 hy
    · obtain ⟨g1, hg1, hgm⟩ := c.holePar_mem hh (some a)
      simp only [Ctx.holePar] at hg
      rw [hg1] at hg; cases hg
      have hga : a ≠ g := fun e => hnd.1.1 (e ▸ hgm)
      have hna : mem1[a]? = some n := by rw [hf a (by simp [Ctx.pre]) hga, hn]
      refine ⟨n, hna, hk, hp, ?_, hc1, ?_, ?_⟩
      · rw [h0, c.top_of_ne_hole hh x x1]
      · refine ih hc hh ?_ hg1 hgn h1 (fun y hy => hf y ?_)
        · have h2 := hnd.2
          rw [show c.pre ++ x :: (c.post ++ r.addrs) = (c.pre ++ x :: c.post) ++ r.addrs by simp]
            at h2
          exact (List.nodup_append.mp h2).1
        · simp only [List.mem_append] at hy
          simp only [Ctx.pre, Ctx.post, List.mem_append, List.mem_cons]
          tauto
      · refine hr.frame (fun y hy => hf y (by simp [Ctx.pre, Ctx.post, hy]) ?_)
        rintro rfl
        have h2 := (List.nodup_append.mp hnd.2).2.2
        exact h2 hgm (by simp [hy])
  | right a l c ih =>
    intro par h _ hnd hg hgn h1 hf
    obtain ⟨n, hn, hk, hp, h0, hc1, hl, hc⟩ := h
    simp only [Ctx.pre, Ctx.post, List.cons_append, List.nodup_cons, List.mem_append,
      List.mem_cons, not_or] at hnd
    by_cases hh : c = .hole
    · subst hh
      simp only [Ctx.holePar, Option.some.injEq] at hg
      subst hg
      rw [hn] at hgn; cases hgn
      simp only [Ctx.top] at hc1
      have hlx : ¬ (l.addr = x) := by
        intro e
        have := hnd.2
        simp only [Ctx.pre, List.append_nil, Ctx.post] at this
        have h2 := (List.nodup_append.mp this).2.2
        exact h2 l.addr_mem_addrs (by simp [e]) 
      refine ⟨_, h1, ?_, ?_, ?_, ?_, ?_, trivial⟩
      · simpa [panel.idx, panel.setChild, h0, hc1, hlx] using hk
      · simpa [panel.idx, panel.setChild, h0, hc1, hlx] using hp
      · simp [panel.idx, panel.setChild, h0, hc1, hlx]
      · simp [panel.idx, panel.setChild, h0, hc1, hlx, Ctx.top]
      · refine hl.frame (fun y hy => hf y (by simp [Ctx.pre, Ctx.post, hy]) ?_)
        rintro rfl
        exact hnd.1.1.1 hy
    · obtain ⟨g1, hg1, hgm⟩ := c.holePar_mem hh (some a)
      simp only [Ctx.holePar] at hg
      rw [hg1] at hg; cases hg
      have hga : a ≠ g := fun e => hnd.1.1.2 (e ▸ hgm)
      have hna : mem1[a]? = some n := by rw [hf a (by simp [Ctx.pre]) hga, hn]
      have hnd2 := hnd.2
      rw [List.append_assoc] at hnd2
      have h3 := List.nodup_append.mp hnd2
      refine ⟨n, hna, hk, hp, h0, ?_, ?_, ?_⟩
      · rw [hc1, c.top_of_ne_hole hh x x1]
      · refine hl.frame (fun y hy => hf y (by simp [Ctx.pre, Ctx.post, hy]) ?_)
        rintro rfl
        exact h3.2.2 hy (by simp [hgm]) 
      · refine ih hc hh ?_ hg1 hgn h1 (fun y hy => hf y ?_)
        · exact h3.2.1
        · simp only [List.mem_append] at hy
          simp only [Ctx.pre, Ctx.post, List.mem_append, List.mem_cons]
          tauto
  | full a c ih =>
    intro par h _ hnd hg hgn h1 hf
    obtain ⟨n, hn, hk, hp, h0, hc⟩ := h
    simp only [Ctx.pre, Ctx.post, List.cons_append, List.nodup_cons, List.mem_append,
      List.mem_cons, not_or] at hnd
    by_cases hh : c = .hole
    · subst hh
      simp only [Ctx.holePar, Option.some.injEq] at hg
      subst hg
      rw [hn] at hgn; cases hgn
      simp only [Ctx.top] at h0
      refine ⟨_, h1, ?_, ?_, ?_, trivial⟩
      · simpa [panel.idx, panel.setChild, h0] using hk
      · simpa [panel.idx, panel.setChild, h0] using hp
      · simp [panel.idx, panel.setChild, h0, Ctx.top]
    · obtain ⟨g1, hg1, hgm⟩ := c.holePar_mem hh (some a)
      simp only [Ctx.holePar] at hg
      rw [hg1] at hg; cases hg
      have hga : a ≠ g := fun e => hnd.1.1 (e ▸ hgm)
      have hna : mem1[a]? = some n := by rw [hf a (by simp [Ctx.pre]) hga, hn]
      refine ⟨n, hna, hk, hp, ?_, ?_⟩
      · rw [h0, c.top_of_ne_hole hh x x1]
      · refine ih hc hh ?_ hg1 hgn h1 (fun y hy => hf y ?_)
        · exact hnd.2
        · simp only [List.mem_append] at hy
          simp only [Ctx.pre, Ctx.post, List.mem_append, List.mem_cons]
          tauto

/-- A leaf of a tree is the whole tree or a child of a split or of a `Full` node. -/
theorem Shape.leaf_decomp (t : Shape) (a : Nat) (ha : a ∈ t.leaves) :
    t = .leaf a ∨ ∃ c s, (∃ r, t = Ctx.plug c (.node s (.leaf a) r)) ∨
      (∃ l, t = Ctx.plug c (.node s l (.leaf a))) ∨ t = Ctx.plug c (.full s (.leaf a)) := by
  induction t with
  | leaf b =>
    simp only [Shape.leaves, List.mem_singleton] at ha
    exact Or.inl (by rw [ha])
  | node b l r ihl ihr =>
    right
    simp only [Shape.leaves, List.mem_append] at ha
    rcases ha with ha | ha
    · rcases ihl ha with h | ⟨c, s, h⟩
      · exact ⟨.hole, b, Or.inl ⟨r, by simp [Ctx.plug, h]⟩⟩
      · refine ⟨.left b c r, s, ?_⟩
        rcases h with ⟨r1, h⟩ | ⟨l1, h⟩ | h
        · exact Or.inl ⟨r1, by simp [Ctx.plug, h]⟩
        · exact Or.inr (Or.inl ⟨l1, by simp [Ctx.plug, h]⟩)
        · exact Or.inr (Or.inr (by simp [Ctx.plug, h]))
    · rcases ihr ha with h | ⟨c, s, h⟩
      · exact ⟨.hole, b, Or.inr (Or.inl ⟨l, by simp [Ctx.plug, h]⟩)⟩
      · refine ⟨.right b l c, s, ?_⟩
        rcases h with ⟨r1, h⟩ | ⟨l1, h⟩ | h
        · exact Or.inl ⟨r1, by simp [Ctx.plug, h]⟩
        · exact Or.inr (Or.inl ⟨l1, by simp [Ctx.plug, h]⟩)
        · exact Or.inr (Or.inr (by simp [Ctx.plug, h]))
  | full b c0 ih =>
    right
    simp only [Shape.leaves] at ha
    rcases ih ha with h | ⟨c, s, h⟩
    · exact ⟨.hole, b, Or.inr (Or.inr (by simp [Ctx.plug, h]))⟩
    · refine ⟨.full b c, s, ?_⟩
      rcases h with ⟨r1, h⟩ | ⟨l1, h⟩ | h
      · exact Or.inl ⟨r1, by simp [Ctx.plug, h]⟩
      · exact Or.inr (Or.inl ⟨l1, by simp [Ctx.plug, h]⟩)
      · exact Or.inr (Or.inr (by simp [Ctx.plug, h]))

/-- The traversal of the store visits exactly the addresses of the shape. -/
theorem Sub.nodesFrom_eq {mem : List panel} {t : Shape} :
    ∀ {par : Option Nat}, Sub mem par t → ∀ fuel, t.depth ≤ fuel →
      nodesFrom mem fuel (some t.addr) = t.addrs := by
  induction t with
  | leaf a =>
    intro par h fuel hf
    obtain ⟨n, hn, hk, -⟩ := h
    cases fuel with
    | zero => simp [Shape.depth] at hf
    | succ f => simp [nodesFrom, Shape.addr, Shape.addrs, hn, hk]
  | node a l r ihl ihr =>
    intro par h fuel hf
    obtain ⟨n, hn, hk, -, h0, h1, hl, hr⟩ := h
    cases fuel with
    | zero => simp [Shape.depth] at hf
    | succ f =>
      simp only [Shape.depth] at hf
      have e0 := ihl hl f (by omega)
      have e1 := ihr hr f (by omega)
      show nodesFrom mem (f + 1) (some a) = a :: (l.addrs ++ r.addrs)
      rcases hk with hk | hk <;> simp [nodesFrom, hn, hk, h0, h1, e0, e1]
  | full a c ih =>
    intro par h fuel hf
    obtain ⟨n, hn, hk, -, h0, hc⟩ := h
    cases fuel with
    | zero => simp [Shape.depth] at hf
    | succ f =>
      simp only [Shape.depth] at hf
      have e0 := ih hc f (by omega)
      show nodesFrom mem (f + 1) (some a) = a :: c.addrs
      simp [nodesFrom, hn, hk, h0, e0]

theorem Sub.filter_info {st : Store} {t : Shape} :
    ∀ {par : Option Nat}, Sub st.mem par t →
      t.addrs.filter (hasKind st infoPanelKind) = t.leaves := by
  induction t with
  | leaf a =>
    intro par h
    obtain ⟨n, hn, hk, -⟩ := h
    simp [Shape.addrs, Shape.leaves, hasKind, Store.get, hn, hk]
  | node a l r ihl ihr =>
    intro par h
    obtain ⟨n, hn, hk, -, -, -, hl, hr⟩ := h
    rcases hk with hk | hk <;>
      simp [Shape.addrs, Shape.leaves, hasKind, Store.get, hn, hk, List.filter_cons,
        ← ihl hl, ← ihr hr]
  | full a c ih =>
    intro par h
    obtain ⟨n, hn, hk, -, -, hc⟩ := h
    simp [Shape.addrs, Shape.leaves, hasKind, Store.get, hn, hk, List.filter_cons, ← ih hc]

theorem Sub.filter_full {st : Store} {t : Shape} :
    ∀ {par : Option Nat}, Sub st.mem par t →
      t.addrs.filter (hasKind st fullPanelKind) = t.fulls := by
  induction t with
  | leaf a =>
    intro par h
    obtain ⟨n, hn, hk, -⟩ := h
    simp [Shape.addrs, Shape.fulls, hasKind, Store.get, hn, hk]
  | node a l r ihl ihr =>
    intro par h
    obtain ⟨n, hn, hk, -, -, -, hl, hr⟩ := h
    rcases hk with hk | hk <;>
      simp [Shape.addrs, Shape.fulls, hasKind, Store.get, hn, hk, List.filter_cons,
        ← ihl hl, ← ihr hr]
  | full a c ih =>
    intro par h
    obtain ⟨n, hn, hk, -, -, hc⟩ := h
    simp [Shape.addrs, Shape.fulls, hasKind, Store.get, hn, hk, List.filter_cons, ← ih hc]

theorem length_le_of_nodup_lt (l : List Nat) (n : Nat) (hnd : l.Nodup) (hlt : ∀ a ∈ l, a < n) :
    l.length ≤ n := by
  have h1 : l.toFinset ⊆ Finset.range n := by
    intro a ha
    simp only [List.mem_toFinset] at ha
    simpa using hlt a ha
  have h2 := Finset.card_le_card h1
  rwa [List.toFinset_card_of_nodup hnd, Finset.card_range] at h2

theorem nodesOf_eq {st : Store} {t : Shape} (h : Sub st.mem none t) (hnd : t.addrs.Nodup) :
    nodesOf st t.addr = t.addrs := by
  unfold nodesOf
  apply h.nodesFrom_eq
  exact le_trans t.depth_le_length (length_le_of_nodup_lt _ _ hnd h.lt_length)

theorem leavesOf_eq {st : Store} {t : Shape} (h : Sub st.mem none t) (hnd : t.addrs.Nodup) :
    leavesOf st t.addr = t.leaves := by
  unfold leavesOf
  rw [nodesOf_eq h hnd, h.filter_info]

theorem countLeaves_eq {st : Store} {t : Shape} (h : Sub st.mem none t) (hnd : t.addrs.Nodup) :
    countLeaves st t.addr = t.leaves.length := by
  unfold countLeaves
  rw [leavesOf_eq h hnd]

theorem countFull_eq {st : Store} {t : Shape} (h : Sub st.mem none t) (hnd : t.addrs.Nodup) :
    countFull st t.addr = t.fulls.length := by
  unfold countFull
  rw [nodesOf_eq h hnd, h.filter_full]

/-! ### The effect of the mutators on the store -/

theorem Store.get_lt {st : Store} {a : Nat} {p : panel} (h : st.get a = some p) :
    a < st.mem.length := (List.getElem?_eq_some.mp h).1

/-- The effect of `split` below the `Full` root. -/
theorem split_full_effect (src : Nat → Nat) (st : Store) (a par : Nat) (k : panelKind)
    (p pp : panel) (ha : st.get a = some p) (hp : p.parent = some par)
    (hpp : st.get par = some pp) (hk : pp.kind = fullPanelKind) (hne0 : a ≠ par) :
    ∃ st1 nm, panel.split src st a k = some st1 ∧ st1.mem.length = st.mem.length + 1 ∧
      st1.mem[par]? = some { pp with kind := k, child1 := some st.mem.length } ∧
      st1.mem[st.mem.length]? =
        some { kind := p.kind, name := nm, infoMode := p.infoMode, parent := some par } ∧
      ∀ x, x ≠ par → x < st.mem.length → st1.mem[x]? = st.mem[x]? := by
  have hlt := Store.get_lt hpp
  have hne : par ≠ st.mem.length := by omega
  have e0 : (st.put par { pp with kind := k }).get a = some p := by
    simp only [Store.get, Store.put] at ha ⊢
    rw [List.getElem?_set_ne (Ne.symm hne0), ha]
  simp only [panel.split, ha, hp, hpp, hk, if_true, e0]
  simp only [Store.get, Store.put, Store.alloc, randomname]
  simp only [List.length_set, List.getElem?_append_left, hlt, List.getElem?_set_self]
  refine ⟨_, (randomname src st).1, rfl, ?_, ?_, ?_, ?_⟩
  · simp
  · simp [hlt, List.getElem?_append_left]
  · simp [hne, List.getElem?_append_right, randomname]
  · intro x hx hxl
    simp [hx.symm, List.getElem?_append_left, hxl]

/-- The effect of `split` below a split. -/
theorem split_node_effect (src : Nat → Nat) (st : Store) (a par : Nat) (k : panelKind)
    (p pp : panel) (ha : st.get a = some p) (hp : p.parent = some par)
    (hpp : st.get par = some pp) (hk : pp.kind ≠ fullPanelKind)
    (hidx : 0 ≤ pp.idx (some a)) (hne : a ≠ par) :
    ∃ st1 nm nm1, panel.split src st a k = some st1 ∧ st1.mem.length = st.mem.length + 2 ∧
      st1.mem[par]? = some (pp.setChild (pp.idx (some a)) (some st.mem.length)) ∧
      st1.mem[a]? = some { p with parent := some st.mem.length } ∧
      st1.mem[st.mem.length]? =
        some { kind := k, name := nm, size := 0, parent := some par, child0 := some a,
               child1 := some (st.mem.length + 1) } ∧
      st1.mem[st.mem.length + 1]? =
        some { kind := p.kind, name := nm1, infoMode := p.infoMode,
               parent := some st.mem.length } ∧
      ∀ x, x ≠ par → x ≠ a → x < st.mem.length → st1.mem[x]? = st.mem[x]? := by
  have hlt := Store.get_lt hpp
  have hlta := Store.get_lt ha
  have hne1 : par ≠ st.mem.length := by omega
  have hne2 : a ≠ st.mem.length := by omega
  have hid : ¬ (pp.idx (some a) < 0) := by omega
  simp only [panel.split, ha, hp, hpp, hk, if_false, hid]
  simp only [Store.get] at ha hpp
  have e1 : ∀ (x y : panel), (st.mem ++ [x, y])[par]? = some pp := by
    intro x y; rw [List.getElem?_append_left hlt, hpp]
  have e2 : ∀ (x y z : panel), ((st.mem ++ [x, y]).set par z)[a]? = some p := by
    intro x y z; rw [List.getElem?_set_ne (Ne.symm hne), List.getElem?_append_left hlta, ha]
  simp only [Store.get, Store.put, Store.alloc, randomname]
  simp only [List.getElem?_concat_length, List.set_append_right, List.length_append,
    List.length_singleton, List.length_set, le_refl, Nat.sub_self, List.set_cons_zero,
    List.append_assoc, List.singleton_append, List.getElem?_append_right,
    List.getElem?_cons_zero, e1, e2]
  refine ⟨_, (randomname src st).1, (randomname src { st with rnd := st.rnd + 8 }).1, rfl,
    ?_, ?_, ?_, ?_, ?_, ?_⟩
  · simp
  · simp [hne, hlt, List.getElem?_append_left]
  · simp [hlta, hlt, List.getElem?_append_left]
  · dsimp only
    rw [List.getElem?_set_ne hne2, List.getElem?_set_ne hne1,
      List.getElem?_append_right (le_refl _)]
    simp [randomname]
  · dsimp only
    rw [List.getElem?_set_ne (by omega), List.getElem?_set_ne (by omega),
      List.getElem?_append_right (by omega)]
    simp [randomname]
  · intro x hx hxa hxl
    simp [hx.symm, hxa.symm, List.getElem?_append_left, hxl]

/-- The effect of `closeMyself` on a child of the parentless root. -/
theorem close_root_effect (st : Store) (a par : Nat) (p pp : panel)
    (ha : st.get a = some p) (hp : p.parent = some par) (hpp : st.get par = some pp)
    (hk : pp.kind ≠ fullPanelKind) (hidx : 0 ≤ pp.idx (some a)) (hroot : pp.parent = none) :
    panel.closeMyself st a = some (st.put par
      (if pp.idx (some a) = 0 then { pp with kind := fullPanelKind, child0 := pp.child1 }
       else { pp with kind := fullPanelKind })) := by
  have hid : ¬ (pp.idx (some a) < 0) := by omega
  simp only [panel.closeMyself, ha, hp, hpp, hk, if_false, hid, panel.closeChild, hroot]

/-- The effect of `closeMyself` on a child of a split that has a parent. -/
theorem close_inner_effect (st : Store) (a par g s : Nat) (p pp gn sn : panel)
    (ha : st.get a = some p) (hp : p.parent = some par) (hpp : st.get par = some pp)
    (hk : pp.kind ≠ fullPanelKind) (hidx : 0 ≤ pp.idx (some a)) (hg : pp.parent = some g)
    (hgn : st.get g = some gn) (hown : 0 ≤ gn.idx (some par))
    (hs : (if pp.idx (some a) = 0 then pp.child1 else pp.child0) = some s)
    (hsn : st.get s = some sn) (hsg : s ≠ g) :
    ∃ st1, panel.closeMyself st a = some st1 ∧ st1.mem.length = st.mem.length ∧
      st1.rnd = st.rnd ∧
      st1.mem[g]? = some (gn.setChild (gn.idx (some par)) (some s)) ∧
      st1.mem[s]? = some { sn with parent := some g } ∧
      ∀ x, x ≠ g → x ≠ s → st1.mem[x]? = st.mem[x]? := by
  have hid : ¬ (pp.idx (some a) < 0) := by omega
  have hid2 : ¬ (gn.idx (some par) < 0) := by omega
  have hltg := Store.get_lt hgn
  have hlts := Store.get_lt hsn
  simp only [panel.closeMyself, ha, hp, hpp, hk, if_false, hid, panel.closeChild, hg, hgn, hid2,
    hs]
  simp only [Store.get] at hsn hgn
  have e1 : ∀ z : panel, (st.mem.set g z)[s]? = some sn := by
    intro z; rw [List.getElem?_set_ne (Ne.symm hsg), hsn]
  simp only [Store.get, Store.put, e1]
  refine ⟨_, rfl, ?_, rfl, ?_, ?_, ?_⟩
  · simp
  · dsimp only
    rw [List.getElem?_set_ne hsg, List.getElem?_set_self hltg]
  · dsimp only
    rw [List.getElem?_set_self (by simpa using hlts)]
  · intro x hx hxs
    dsimp only
    rw [List.getElem?_set_ne (Ne.symm hxs), List.getElem?_set_ne (Ne.symm hx)]

theorem nodup_mid {p u q : List Nat} (h : (p ++ u ++ q).Nodup) : u.Nodup := by
  simp only [List.nodup_append] at h
  exact h.1.2.1

theorem nodup_ctx_not_mem {p u q : List Nat} (h : (p ++ u ++ q).Nodup) {x : Nat}
    (hx : x ∈ p ++ q) : x ∉ u := by
  simp only [List.nodup_append, List.mem_append] at h hx
  intro hu
  rcases hx with hx | hx
  · exact h.1.2.2 hx hu
  · exact h.2.2 (List.mem_append.mpr (Or.inr hu)) hx

theorem nodup_replace {p u v q : List Nat} (h : (p ++ u ++ q).Nodup) (hv : v.Nodup)
    (hm : ∀ x ∈ v, x ∈ u ∨ x ∉ p ++ u ++ q) : (p ++ v ++ q).Nodup := by
  simp only [List.nodup_append, List.mem_append, List.Disjoint] at h hm ⊢
  refine ⟨⟨h.1.1, hv, ?_⟩, h.2.1, ?_⟩
  · intro x hp hxv
    rcases hm x hxv with hu | hn
    · exact h.1.2.2 hp hu
    · exact hn (Or.inl (Or.inl hp))
  · intro x hx hq
    rcases hx with hx | hx
    · exact h.2.2 (Or.inl hx) hq
    · rcases hm x hx with hu | hn
      · exact h.2.2 (Or.inr hu) hq
      · exact hn (Or.inr hq)

theorem Shape.leaves_length_pos (t : Shape) : 0 < t.leaves.length := by
  induction t with
  | leaf a => simp [Shape.leaves]
  | node a l r ihl ihr => simp [Shape.leaves]; omega
  | full a c ih => simpa [Shape.leaves] using ih

/-! ### The steps preserve the shape of the tree -/

theorem Ctx.rooted_plug (c : Ctx) (u v : Shape) (h : (c.plug u).rooted) (hv : v.fulls = [])
    (hh : c = .hole → v.rooted) : (c.plug v).rooted := by
  cases c with
  | hole => exact hh rfl
  | left b c r => exact ⟨Ctx.plug_fulls_nil_of c u v h.1 hv, h.2⟩
  | right b l c => exact ⟨h.1, Ctx.plug_fulls_nil_of c u v h.2 hv⟩
  | full b c => exact Ctx.plug_fulls_nil_of c u v h hv

theorem Ctx.rooted_node (c : Ctx) (s : Nat) (l r : Shape) (h : (c.plug (.node s l r)).rooted) :
    l.fulls = [] ∧ r.fulls = [] := by
  have key : ∀ c1 : Ctx, (c1.plug (.node s l r)).fulls = [] → l.fulls = [] ∧ r.fulls = [] := by
    intro c1 h1
    have := Ctx.plug_fulls_nil c1 _ h1
    simpa [Shape.fulls] using this
  cases c with
  | hole => exact h
  | left b c r1 => exact key c h.1
  | right b l1 c => exact key c h.2
  | full b c => exact key c h

theorem Ctx.rooted_full (c : Ctx) (s : Nat) (u : Shape) (h : (c.plug (.full s u)).rooted) :
    c = .hole := by
  have key : ∀ c1 : Ctx, (c1.plug (.full s u)).fulls = [] → False := by
    intro c1 h1
    have := Ctx.plug_fulls_nil c1 _ h1
    simp [Shape.fulls] at this
  cases c with
  | hole => rfl
  | left b c r1 => exact (key c h.1).elim
  | right b l1 c => exact (key c h.2).elim
  | full b c => exact (key c h).elim

theorem hasKind_eq {st : Store} {a : Nat} {n : panel} (k : panelKind) (h : st.mem[a]? = some n) :
    hasKind st k a = decide (n.kind = k) := by
  simp [hasKind, Store.get, h]

theorem nodup_split_left (s a n : Nat) (r : Shape)
    (h : (Shape.node s (.leaf a) r).addrs.Nodup)
    (hlt : ∀ x ∈ (Shape.node s (.leaf a) r).addrs, x < n) :
    (Shape.node s (.node n (.leaf a) (.leaf (n + 1))) r).addrs.Nodup := by
  simp only [Shape.addrs, List.nodup_cons, List.mem_cons, List.mem_append, List.cons_append,
    List.nil_append, not_or, List.mem_singleton, List.not_mem_nil, or_false] at h hlt ⊢
  have hs := hlt s (Or.inl rfl)
  have ha := hlt a (Or.inr (Or.inl rfl))
  have hr : ∀ x ∈ r.addrs, x < n := fun x hx => hlt x (Or.inr (Or.inr hx))
  have h1 : n ∉ r.addrs := fun hx => absurd (hr _ hx) (by omega)
  have h2 : n + 1 ∉ r.addrs := fun hx => absurd (hr _ hx) (by omega)
  refine ⟨⟨by omega, h.1.1, by omega, h.1.2⟩, ⟨by omega, by omega, h1⟩, ⟨by omega, h.2.1⟩,
    h2, h.2.2⟩

theorem mem_split_left (s a n : Nat) (r : Shape) :
    ∀ x ∈ (Shape.node s (.node n (.leaf a) (.leaf (n + 1))) r).addrs,
      x ∈ (Shape.node s (.leaf a) r).addrs ∨ n ≤ x := by
  intro x hx
  simp only [Shape.addrs, List.mem_cons, List.mem_append, List.cons_append,
    List.nil_append, List.mem_singleton, List.not_mem_nil, or_false] at hx ⊢
  rcases hx with rfl | rfl | rfl | rfl | hx
  · tauto
  · right; omega
  · tauto
  · right; omega
  · tauto

theorem nodup_split_right (s a n : Nat) (l : Shape)
    (h : (Shape.node s l (.leaf a)).addrs.Nodup)
    (hlt : ∀ x ∈ (Shape.node s l (.leaf a)).addrs, x < n) :
    (Shape.node s l (.node n (.leaf a) (.leaf (n + 1)))).addrs.Nodup := by
  simp only [Shape.addrs, List.nodup_cons, List.mem_cons, List.mem_append, List.cons_append,
    List.nil_append, not_or, List.mem_singleton, List.not_mem_nil, or_false,
    List.nodup_append, List.nodup_nil, and_true, List.Disjoint, List.nodup_singleton,
    true_and] at h hlt ⊢
  have hs := hlt s (Or.inl rfl)
  have ha := hlt a (Or.inr (Or.inr rfl))
  have hr : ∀ x ∈ l.addrs, x < n := fun x hx => hlt x (Or.inr (Or.inl hx))
  have h1 : n ∉ l.addrs := fun hx => absurd (hr _ hx) (by omega)
  have h2 : n + 1 ∉ l.addrs := fun hx => absurd (hr _ hx) (by omega)
  refine ⟨⟨h.1.1, by omega, h.1.2, by omega⟩, h.2.1, ⟨⟨by omega, by omega⟩, by omega, id⟩, ?_⟩
  intro x hx hx2
  rcases hx2 with rfl | rfl | rfl
  · exact h1 hx
  · exact h.2.2.2 hx rfl
  · exact h2 hx

theorem mem_split_right (s a n : Nat) (l : Shape) :
    ∀ x ∈ (Shape.node s l (.node n (.leaf a) (.leaf (n + 1)))).addrs,
      x ∈ (Shape.node s l (.leaf a)).addrs ∨ n ≤ x := by
  intro x hx
  simp only [Shape.addrs, List.mem_cons, List.mem_append, List.cons_append,
    List.nil_append, List.mem_singleton, List.not_mem_nil, or_false] at hx ⊢
  rcases hx with rfl | hx | rfl | rfl | rfl
  · tauto
  · tauto
  · right; omega
  · tauto
  · right; omega

theorem hasKind_congr {st st1 : Store} {a : Nat} (k : panelKind)
    (h : st1.mem[a]? = st.mem[a]?) : hasKind st1 k a = hasKind st k a := by
  simp [hasKind, Store.get, h]

theorem Ctx.top_mem_pre (c : Ctx) (hc : c ≠ .hole) (x : Nat) : c.top x ∈ c.pre := by
  cases c <;> simp_all [Ctx.top, Ctx.pre]

theorem root_kind_after (c : Ctx) (s : Nat) (st st1 : Store) (sn1 : panel)
    (hs : st1.mem[s]? = some sn1) (hk1 : sn1.kind ≠ fullPanelKind)
    (hfc : ∀ x ∈ c.pre ++ c.post, st1.mem[x]? = st.mem[x]?)
    (h : hasKind st fullPanelKind (c.top s) = false) :
    hasKind st1 fullPanelKind (c.top s) = false := by
  by_cases hc : c = .hole
  · subst hc
    simp [Ctx.top, hasKind_eq _ hs, hk1]
  · rw [hasKind_congr _ (hfc _ (List.mem_append.mpr (Or.inl (c.top_mem_pre hc s))))]
    exact h

/-- The step of `split` on a leaf of a well-formed tree. -/
theorem split_step (src : Nat → Nat) (st : Store) (root a : Nat) (k : panelKind)
    (hwf : WellFormed st root) (ha : a ∈ leavesOf st root)
    (hk : k = splitHorizontalPanelKind ∨ k = splitVerticalPanelKind) :
    ∃ st1, panel.split src st a k = some st1 ∧ WellFormed st1 root ∧
      countLeaves st1 root = countLeaves st root + 1 ∧ SplitPost st st1 a k ∧
      (hasKind st fullPanelKind root = false → hasKind st1 fullPanelKind root = false) ∧
      (∀ p, st.get a = some p → p.parent = some root →
        hasKind st1 fullPanelKind root = false) := by
  obtain ⟨t, rfl, hsub, hnd, hroot⟩ := hwf
  rw [leavesOf_eq hsub hnd] at ha
  have hkf : k ≠ fullPanelKind := by rcases hk with rfl | rfl <;> decide
  rcases t.leaf_decomp a ha with rfl | ⟨c, s, ⟨r, rfl⟩ | ⟨l, rfl⟩ | rfl⟩
  · exact hroot.elim
  · -- the leaf is the first child of the split `s`
    have hsub0 := hsub
    rw [Sub_plug] at hsub
    obtain ⟨hctx, sn, hsn, hsk, hsp, hs0, hs1, ⟨an, han, hak, hap⟩, hr⟩ := hsub
    simp only [Shape.addr] at hs0 hctx
    have hnd0 := hnd
    rw [Ctx.plug_addrs] at hnd
    have hu := nodup_mid hnd
    have hu0 := hu
    simp only [Shape.addrs, List.nodup_cons, List.mem_cons, List.mem_append, List.cons_append,
      List.nil_append, not_or] at hu
    obtain ⟨⟨hsa, hsr⟩, har, -⟩ := hu
    have has : a ≠ s := fun e => hsa e.symm
    have hskf : sn.kind ≠ fullPanelKind := by rcases hsk with e | e <;> rw [e] <;> decide
    have hidx : sn.idx (some a) = 0 := by simp [panel.idx, hs0]
    obtain ⟨st1, nm, nm1, hsplit, hlen, e_s, e_a, e_L, e_L1, e_other⟩ :=
      split_node_effect src st a s k an sn han hap hsn hskf (by omega) has
    rw [hidx] at e_s
    have hlt : ∀ x ∈ (c.plug (.node s (.leaf a) r)).addrs, x < st.mem.length := hsub0.lt_length
    rw [Ctx.plug_addrs] at hlt
    have hltu : ∀ x ∈ (Shape.node s (.leaf a) r).addrs, x < st.mem.length :=
      fun x hx => hlt x (by simp only [List.mem_append]; tauto)
    have hfc : ∀ x ∈ c.pre ++ c.post, st1.mem[x]? = st.mem[x]? := by
      intro x hx
      have hxu := nodup_ctx_not_mem hnd hx
      simp only [Shape.addrs, List.mem_cons, List.mem_append, not_or, List.cons_append,
        List.nil_append] at hxu
      refine e_other x hxu.1 hxu.2.1 (hlt x ?_)
      simp only [List.mem_append] at hx ⊢
      tauto
    have hfr : ∀ x ∈ r.addrs, st1.mem[x]? = st.mem[x]? := by
      intro x hx
      refine e_other x ?_ ?_ (hltu x (by simp [Shape.addrs, hx]))
      · rintro rfl; exact hsr hx
      · rintro rfl; exact har hx
    have hsub1 : Sub st1.mem none
        (c.plug (.node s (.node st.mem.length (.leaf a) (.leaf (st.mem.length + 1))) r)) := by
      rw [Sub_plug]
      refine ⟨hctx.frame_ctx hfc, _, e_s, ?_, ?_, ?_, ?_, ?_, hr.frame hfr⟩
      · simpa [panel.setChild] using hsk
      · simpa [panel.setChild] using hsp
      · simp [panel.setChild, Shape.addr]
      · simpa [panel.setChild] using hs1
      · exact ⟨_, e_L, hk, rfl, rfl, rfl, ⟨_, e_a, hak, rfl⟩, ⟨_, e_L1, hak, rfl⟩⟩
    have hnd1 : (c.plug (.node s (.node st.mem.length (.leaf a)
        (.leaf (st.mem.length + 1))) r)).addrs.Nodup := by
      rw [Ctx.plug_addrs]
      refine nodup_replace hnd (nodup_split_left s a _ r hu0 hltu) ?_
      intro x hx
      refine (mem_split_left s a _ r x hx).imp id ?_
      intro hge hmem
      exact absurd (hlt x hmem) (by omega)
    have hfl := Ctx.rooted_node c s _ _ hroot
    have hroot1 : (c.plug (.node s (.node st.mem.length (.leaf a)
        (.leaf (st.mem.length + 1))) r)).rooted := by
      refine Ctx.rooted_plug c _ _ hroot ?_ ?_
      · simp [Shape.fulls, hfl.2]
      · intro _; exact ⟨by simp [Shape.fulls], hfl.2⟩
    have haddr : (c.plug (.node s (.node st.mem.length (.leaf a)
        (.leaf (st.mem.length + 1))) r)).addr = (c.plug (.node s (.leaf a) r)).addr := by
      rw [Ctx.plug_addr, Ctx.plug_addr]; rfl
    refine ⟨st1, hsplit, ⟨_, haddr, hsub1, hnd1, hroot1⟩, ?_, ?_, ?_, ?_⟩
    · rw [countLeaves_eq hsub0 hnd0, ← haddr, countLeaves_eq hsub1 hnd1]
      have := Ctx.plug_leaves_length c (.node s (.node st.mem.length (.leaf a)
        (.leaf (st.mem.length + 1))) r) (.node s (.leaf a) r)
      simp only [Shape.leaves, List.length_append, List.length_singleton] at this ⊢
      omega
    · refine ⟨an, s, sn, st.mem.length, _, st.mem.length + 1, _, han, hap, hsn, e_a, e_L, rfl,
        rfl, rfl, by omega, e_L1, hak, rfl, rfl, rfl, rfl, fun h => absurd h hskf, ?_, ?_⟩
      · intro _
        refine ⟨le_refl _, rfl, rfl, by omega, ?_⟩
        rw [hidx]; exact e_s
      · intro x hx hxa hxs
        exact e_other x hxs hxa hx
    · intro h
      rw [Ctx.plug_addr] at h ⊢
      refine root_kind_after c s st st1 _ e_s ?_ hfc h
      simpa [panel.setChild] using hskf
    · intro p hp hpr
      rw [Ctx.plug_addr] at hpr ⊢
      simp only [Store.get] at hp
      rw [han] at hp; cases hp
      rw [hap] at hpr
      simp only [Shape.addr, Option.some.injEq] at hpr ⊢
      rw [← hpr, hasKind_eq _ e_s]
      simpa [panel.setChild] using hskf
  · -- the leaf is the second child of the split `s`
    have hsub0 := hsub
    rw [Sub_plug] at hsub
    obtain ⟨hctx, sn, hsn, hsk, hsp, hs0, hs1, hl, ⟨an, han, hak, hap⟩⟩ := hsub
    simp only [Shape.addr] at hs1 hctx
    have hnd0 := hnd
    rw [Ctx.plug_addrs] at hnd
    have hu := nodup_mid hnd
    have hu0 := hu
    simp only [Shape.addrs, List.nodup_cons, List.mem_cons, List.mem_append, List.cons_append,
      List.nil_append, not_or, List.nodup_append, List.mem_singleton, List.Disjoint,
      List.not_mem_nil, or_false, not_false_eq_true, and_true] at hu
    obtain ⟨⟨hsl, hsa⟩, -, -, hla⟩ := hu
    have has : a ≠ s := fun e => hsa e.symm
    have hlna : l.addr ≠ a := fun e => hla l.addr_mem_addrs e
    have hskf : sn.kind ≠ fullPanelKind := by rcases hsk with e | e <;> rw [e] <;> decide
    have hidx : sn.idx (some a) = 1 := by simp [panel.idx, hs0, hs1, hlna]
    obtain ⟨st1, nm, nm1, hsplit, hlen, e_s, e_a, e_L, e_L1, e_other⟩ :=
      split_node_effect src st a s k an sn han hap hsn hskf (by omega) has
    rw [hidx] at e_s
    have hlt : ∀ x ∈ (c.plug (.node s l (.leaf a))).addrs, x < st.mem.length := hsub0.lt_length
    rw [Ctx.plug_addrs] at hlt
    have hltu : ∀ x ∈ (Shape.node s l (.leaf a)).addrs, x < st.mem.length :=
      fun x hx => hlt x (by simp only [List.mem_append]; tauto)
    have hfc : ∀ x ∈ c.pre ++ c.post, st1.mem[x]? = st.mem[x]? := by
      intro x hx
      have hxu := nodup_ctx_not_mem hnd hx
      simp only [Shape.addrs, List.mem_cons, List.mem_append, not_or, List.cons_append,
        List.nil_append, List.mem_singleton, List.not_mem_nil, or_false] at hxu
      refine e_other x hxu.1 hxu.2.2 (hlt x ?_)
      simp only [List.mem_append] at hx ⊢
      tauto
    have hfl0 : ∀ x ∈ l.addrs, st1.mem[x]? = st.mem[x]? := by
      intro x hx
      refine e_other x ?_ ?_ (hltu x (by simp [Shape.addrs, hx]))
      · rintro rfl; exact hsl hx
      · rintro rfl; exact hla hx rfl
    have hsub1 : Sub st1.mem none
        (c.plug (.node s l (.node st.mem.length (.leaf a) (.leaf (st.mem.length + 1))))) := by
      rw [Sub_plug]
      refine ⟨hctx.frame_ctx hfc, _, e_s, ?_, ?_, ?_, ?_, hl.frame hfl0, ?_⟩
      · simpa [panel.setChild] using hsk
      · simpa [panel.setChild] using hsp
      · simpa [panel.setChild] using hs0
      · simp [panel.setChild, Shape.addr]
      · exact ⟨_, e_L, hk, rfl, rfl, rfl, ⟨_, e_a, hak, rfl⟩, ⟨_, e_L1, hak, rfl⟩⟩
    have hnd1 : (c.plug (.node s l (.node st.mem.length (.leaf a)
        (.leaf (st.mem.length + 1))))).addrs.Nodup := by
      rw [Ctx.plug_addrs]
      refine nodup_replace hnd (nodup_split_right s a _ l hu0 hltu) ?_
      intro x hx
      refine (mem_split_right s a _ l x hx).imp id ?_
      intro hge hmem
      exact absurd (hlt x hmem) (by omega)
    have hfl := Ctx.rooted_node c s _ _ hroot
    have hroot1 : (c.plug (.node s l (.node st.mem.length (.leaf a)
        (.leaf (st.mem.length + 1))))).rooted := by
      refine Ctx.rooted_plug c _ _ hroot ?_ ?_
      · simp [Shape.fulls, hfl.1]
      · intro _; exact ⟨hfl.1, by simp [Shape.fulls]⟩
    have haddr : (c.plug (.node s l (.node st.mem.length (.leaf a)
        (.leaf (st.mem.length + 1))))).addr = (c.plug (.node s l (.leaf a))).addr := by
      rw [Ctx.plug_addr, Ctx.plug_addr]; rfl
    refine ⟨st1, hsplit, ⟨_, haddr, hsub1, hnd1, hroot1⟩, ?_, ?_, ?_, ?_⟩
    · rw [countLeaves_eq hsub0 hnd0, ← haddr, countLeaves_eq hsub1 hnd1]
      have := Ctx.plug_leaves_length c (.node s l (.node st.mem.length (.leaf a)
        (.leaf (st.mem.length + 1)))) (.node s l (.leaf a))
      simp only [Shape.leaves, List.length_append, List.length_singleton] at this ⊢
      omega
    · refine ⟨an, s, sn, st.mem.length, _, st.mem.length + 1, _, han, hap, hsn, e_a, e_L, rfl,
        rfl, rfl, by omega, e_L1, hak, rfl, rfl, rfl, rfl, fun h => absurd h hskf, ?_, ?_⟩
      · intro _
        refine ⟨le_refl _, rfl, rfl, by omega, ?_⟩
        rw [hidx]; exact e_s
      · intro x hx hxa hxs
        exact e_other x hxs hxa hx
    · intro h
      rw [Ctx.plug_addr] at h ⊢
      refine root_kind_after c s st st1 _ e_s ?_ hfc h
      simpa [panel.setChild] using hskf
    · intro p hp hpr
      rw [Ctx.plug_addr] at hpr ⊢
      simp only [Store.get] at hp
      rw [han] at hp; cases hp
      rw [hap] at hpr
      simp only [Shape.addr, Option.some.injEq] at hpr ⊢
      rw [← hpr, hasKind_eq _ e_s]
      simpa [panel.setChild] using hskf
  · -- the leaf is the child of the `Full` root
    have hc := Ctx.rooted_full c s _ hroot
    subst hc
    simp only [Ctx.plug] at hsub hnd ha hroot ⊢
    obtain ⟨sn, hsn, hsk, hsp, hs0, ⟨an, han, hak, hap⟩⟩ := hsub
    simp only [Shape.addr] at hs0 ⊢
    simp only [Shape.addrs, List.nodup_cons, List.mem_singleton, List.not_mem_nil,
      not_false_eq_true, List.nodup_nil, and_true] at hnd
    have has : a ≠ s := fun e => hnd e.symm
    obtain ⟨st1, nm, hsplit, hlen, e_s, e_L, e_other⟩ :=
      split_full_effect src st a s k an sn han hap hsn hsk has
    have hal := Store.get_lt han
    have hsl := Store.get_lt hsn
    have e_a : st1.mem[a]? = some an := by rw [e_other a has hal]; exact han
    have hsub1 : Sub st1.mem none (.node s (.leaf a) (.leaf st.mem.length)) :=
      ⟨_, e_s, hk, hsp, hs0, rfl, ⟨_, e_a, hak, hap⟩, ⟨_, e_L, hak, rfl⟩⟩
    have hnd1 : (Shape.node s (.leaf a) (.leaf st.mem.length)).addrs.Nodup := by
      simp only [Shape.addrs, List.nodup_cons, List.mem_cons, List.mem_append,
        List.mem_singleton, List.not_mem_nil, or_false, not_or, List.nodup_nil, and_true,
        List.cons_append, List.nil_append, not_false_eq_true]
      omega
    have hsub0 : Sub st.mem none (.full s (.leaf a)) :=
      ⟨sn, hsn, hsk, hsp, hs0, ⟨an, han, hak, hap⟩⟩
    have hnd0 : (Shape.full s (.leaf a)).addrs.Nodup := by
      simp only [Shape.addrs, List.nodup_cons, List.mem_singleton, List.not_mem_nil,
        not_false_eq_true, List.nodup_nil, and_true]
      exact hnd
    refine ⟨st1, hsplit, ⟨.node s (.leaf a) (.leaf st.mem.length), rfl, hsub1, hnd1, ⟨rfl, rfl⟩⟩,
      ?_, ?_, ?_, ?_⟩
    · have e1 := countLeaves_eq hsub1 hnd1
      have e0 := countLeaves_eq hsub0 hnd0
      simp only [Shape.addr] at e1 e0
      rw [e1, e0]
      simp [Shape.leaves]
    · refine ⟨an, s, sn, s, _, st.mem.length, _, han, hap, hsn, ?_, e_s, rfl, hs0, rfl,
        le_refl _, e_L, hak, rfl, rfl, rfl, rfl, fun _ => ⟨rfl, rfl, rfl, rfl, rfl, rfl⟩,
        fun h => absurd hsk h, ?_⟩
      · show st1.mem[a]? = _
        rw [e_a, ← hap]
      · intro x hx hxa hxs
        exact e_other x hxs hx
    · intro _
      rw [hasKind_eq _ e_s]
      simpa using hkf
    · intro _ _ _
      rw [hasKind_eq _ e_s]
      simpa using hkf

theorem SubCtx.holePar_child {mem : List panel} {c : Ctx} {x g : Nat} :
    ∀ {par : Option Nat}, SubCtx mem par c x → c ≠ .hole → c.holePar par = some g →
      ∃ gn, mem[g]? = some gn ∧ (gn.child0 = some x ∨ gn.child1 = some x) := by
  induction c with
  | hole => intro par _ hc; exact absurd rfl hc
  | left a c r ih =>
    intro par h _ hg
    obtain ⟨n, hn, -, -, h0, -, hc, -⟩ := h
    by_cases hh : c = .hole
    · subst hh
      simp only [Ctx.holePar, Option.some.injEq] at hg
      subst hg
      exact ⟨n, hn, Or.inl h0⟩
    · exact ih hc hh hg
  | right a l c ih =>
    intro par h _ hg
    obtain ⟨n, hn, -, -, -, h1, -, hc⟩ := h
    by_cases hh : c = .hole
    · subst hh
      simp only [Ctx.holePar, Option.some.injEq] at hg
      subst hg
      exact ⟨n, hn, Or.inr h1⟩
    · exact ih hc hh hg
  | full a c ih =>
    intro par h _ hg
    obtain ⟨n, hn, -, -, h0, hc⟩ := h
    by_cases hh : c = .hole
    · subst hh
      simp only [Ctx.holePar, Option.some.injEq] at hg
      subst hg
      exact ⟨n, hn, Or.inl h0⟩
    · exact ih hc hh hg

theorem panel.idx_nonneg_of_child {gn : panel} {x : Nat}
    (h : gn.child0 = some x ∨ gn.child1 = some x) : 0 ≤ gn.idx (some x) := by
  unfold panel.idx
  split_ifs <;> first | omega | tauto

theorem nodup_ctx_cons {p u q : List Nat} (h : (p ++ u ++ q).Nodup) {x : Nat} (hx : x ∈ u) :
    (p ++ x :: q).Nodup := by
  have := @nodup_replace _ _ [x] _ h (List.nodup_singleton x)
    (fun y hy => Or.inl (by rw [List.mem_singleton.mp hy]; exact hx))
  simpa using this

/-- The step of `closeMyself` on a leaf of a well-formed tree. -/
theorem close_step (st : Store) (root a : Nat)
    (hwf : WellFormed st root) (ha : a ∈ leavesOf st root) :
    ∃ st1, panel.closeMyself st a = some st1 ∧ WellFormed st1 root ∧
      ∀ p par pp, st.get a = some p → p.parent = some par → st.get par = some pp →
        (pp.kind = fullPanelKind → st1 = st) ∧
        (pp.kind ≠ fullPanelKind → countLeaves st1 root + 1 = countLeaves st root) ∧
        (pp.kind ≠ fullPanelKind → par ≠ root → ClosePost st st1 a) := by
  obtain ⟨t, rfl, hsub, hnd, hroot⟩ := hwf
  rw [leavesOf_eq hsub hnd] at ha
  rcases t.leaf_decomp a ha with rfl | ⟨c, s, ⟨r, rfl⟩ | ⟨l, rfl⟩ | rfl⟩
  · exact hroot.elim
  · -- the leaf is the first child of the split `s`
    have hsub0 := hsub
    rw [Sub_plug] at hsub
    obtain ⟨hctx, sn, hsn, hsk, hsp, hs0, hs1, ⟨an, han, hak, hap⟩, hr⟩ := hsub
    simp only [Shape.addr] at hs0 hctx
    have hnd0 := hnd
    rw [Ctx.plug_addrs] at hnd
    have hu := nodup_mid hnd
    simp only [Shape.addrs, List.nodup_cons, List.mem_cons, List.mem_append, List.cons_append,
      List.nil_append, not_or] at hu
    obtain ⟨⟨hsa, hsr⟩, har, hrnd⟩ := hu
    have hskf : sn.kind ≠ fullPanelKind := by rcases hsk with e | e <;> rw [e] <;> decide
    have hidx : sn.idx (some a) = 0 := by simp [panel.idx, hs0]
    have hfl := Ctx.rooted_node c s _ _ hroot
    obtain ⟨rn, hrn, hrp⟩ := hr.top
    by_cases hc : c = .hole
    · -- the split is the root
      subst hc
      simp only [Ctx.holePar] at hsp
      simp only [Ctx.plug, Shape.addr] at hsub0 hnd0 ha hroot ⊢
      have heff := close_root_effect st a s an sn han hap hsn hskf (by omega) hsp
      rw [hidx] at heff
      simp only [if_true] at heff
      have hsl := Store.get_lt hsn
      have e_s : (st.put s { sn with kind := fullPanelKind, child0 := sn.child1 }).mem[s]? =
          some { sn with kind := fullPanelKind, child0 := sn.child1 } := by
        simp [Store.put, hsl]
      have e_o : ∀ x ∈ r.addrs,
          (st.put s { sn with kind := fullPanelKind, child0 := sn.child1 }).mem[x]? =
            st.mem[x]? := by
        intro x hx
        have : s ≠ x := by rintro rfl; exact hsr hx
        simp [Store.put, this]
      have hsub1 : Sub (st.put s { sn with kind := fullPanelKind, child0 := sn.child1 }).mem
          none (.full s r) := ⟨_, e_s, rfl, hsp, hs1, hr.frame e_o⟩
      have hnd1 : (Shape.full s r).addrs.Nodup := by
        simp only [Shape.addrs, List.nodup_cons]
        exact ⟨hsr, hrnd⟩
      refine ⟨_, heff, ⟨.full s r, rfl, hsub1, hnd1, hfl.2⟩, ?_⟩
      intro p par pp hp hpar hpp
      simp only [Store.get] at hp hpp
      rw [han] at hp; cases hp
      rw [hap] at hpar; cases hpar
      rw [hsn] at hpp; cases hpp
      refine ⟨fun h => absurd h hskf, fun _ => ?_, fun _ h => absurd rfl h⟩
      have e1 := countLeaves_eq hsub1 hnd1
      have e0 := countLeaves_eq hsub0 hnd0
      simp only [Shape.addr] at e1 e0
      rw [e1, e0]
      simp [Shape.leaves]
    · -- the split has a parent `g`
      obtain ⟨g, hg, hgm⟩ := c.holePar_mem hc none
      rw [hg] at hsp
      obtain ⟨gn, hgn, hgc⟩ := hctx.holePar_child hc hg
      have hra : r.addr ∈ (Shape.node s (.leaf a) r).addrs := by
        simp [Shape.addrs, r.addr_mem_addrs]
      have hrg : r.addr ≠ g := by
        intro e
        exact nodup_ctx_not_mem hnd (List.mem_append.mpr (Or.inl hgm)) (e ▸ hra)
      obtain ⟨st1, hclose, hlen, hrnd1, e_g, e_r, e_other⟩ :=
        close_inner_effect st a s g r.addr an sn gn rn han hap hsn hskf (by omega) hsp hgn
          (panel.idx_nonneg_of_child hgc) (by rw [hidx]; simpa using hs1) hrn hrg
      have hfc : ∀ x ∈ c.pre ++ c.post, x ≠ g → st1.mem[x]? = st.mem[x]? := by
        intro x hx hxg
        refine e_other x hxg ?_
        rintro rfl
        exact nodup_ctx_not_mem hnd hx hra
      have hsub1 : Sub st1.mem none (c.plug r) := by
        rw [Sub_plug]
        refine ⟨hctx.splice hc (nodup_ctx_cons hnd (by simp [Shape.addrs])) hg hgn e_g hfc, ?_⟩
        rw [hg]
        refine hr.reparent rn hrn e_r ?_ hrnd
        intro x hx hxr
        refine e_other x ?_ hxr
        rintro rfl
        exact nodup_ctx_not_mem hnd (List.mem_append.mpr (Or.inl hgm))
          (by simp [Shape.addrs, hx])
      have hnd1 : (c.plug r).addrs.Nodup := by
        rw [Ctx.plug_addrs]
        exact nodup_replace hnd hrnd (fun x hx => Or.inl (by simp [Shape.addrs, hx]))
      have hroot1 : (c.plug r).rooted :=
        Ctx.rooted_plug c _ _ hroot hfl.2 (fun h => absurd h hc)
      have haddr : (c.plug r).addr = (c.plug (.node s (.leaf a) r)).addr := by
        rw [Ctx.plug_addr, Ctx.plug_addr]; exact c.top_of_ne_hole hc _ _
      refine ⟨st1, hclose, ⟨_, haddr, hsub1, hnd1, hroot1⟩, ?_⟩
      intro p par pp hp hpar hpp
      simp only [Store.get] at hp hpp
      rw [han] at hp; cases hp
      rw [hap] at hpar; cases hpar
      rw [hsn] at hpp; cases hpp
      refine ⟨fun h => absurd h hskf, fun _ => ?_, fun _ _ => ?_⟩
      · rw [countLeaves_eq hsub0 hnd0, ← haddr, countLeaves_eq hsub1 hnd1]
        have := Ctx.plug_leaves_length c (.node s (.leaf a) r) r
        simp only [Shape.leaves, List.length_append, List.length_singleton] at this ⊢
        omega
      · refine ⟨an, s, sn, g, gn, r.addr, rn, han, hap, hsn, hsp, hgn, ?_, hrn,
          panel.idx_nonneg_of_child hgc, e_g, e_r, ?_, hlen, hrnd1⟩
        · simp [hs0, hs1]
        · intro x hx hxr
          exact e_other x hx hxr
  · -- the leaf is the second child of the split `s`
    have hsub0 := hsub
    rw [Sub_plug] at hsub
    obtain ⟨hctx, sn, hsn, hsk, hsp, hs0, hs1, hl, ⟨an, han, hak, hap⟩⟩ := hsub
    simp only [Shape.addr] at hs1 hctx
    have hnd0 := hnd
    rw [Ctx.plug_addrs] at hnd
    have hu := nodup_mid hnd
    simp only [Shape.addrs, List.nodup_cons, List.mem_cons, List.mem_append, List.cons_append,
      List.nil_append, not_or, List.nodup_append, List.mem_singleton, List.Disjoint,
      List.not_mem_nil, or_false, not_false_eq_true, and_true] at hu
    obtain ⟨⟨hsl, hsa⟩, hlnd, -, hla⟩ := hu
    have hlna : l.addr ≠ a := fun e => hla l.addr_mem_addrs e
    have hskf : sn.kind ≠ fullPanelKind := by rcases hsk with e | e <;> rw [e] <;> decide
    have hidx : sn.idx (some a) = 1 := by simp [panel.idx, hs0, hs1, hlna]
    have hfl := Ctx.rooted_node c s _ _ hroot
    obtain ⟨ln, hln, hlp⟩ := hl.top
    by_cases hc : c = .hole
    · -- the split is the root
      subst hc
      simp only [Ctx.holePar] at hsp
      simp only [Ctx.plug, Shape.addr] at hsub0 hnd0 ha hroot ⊢
      have heff := close_root_effect st a s an sn han hap hsn hskf (by omega) hsp
      rw [hidx] at heff
      simp only [one_ne_zero, if_false] at heff
      have hsl1 := Store.get_lt hsn
      have e_s : (st.put s { sn with kind := fullPanelKind }).mem[s]? =
          some { sn with kind := fullPanelKind } := by
        simp [Store.put, hsl1]
      have e_o : ∀ x ∈ l.addrs,
          (st.put s { sn with kind := fullPanelKind }).mem[x]? = st.mem[x]? := by
        intro x hx
        have : s ≠ x := by rintro rfl; exact hsl hx
        simp [Store.put, this]
      have hsub1 : Sub (st.put s { sn with kind := fullPanelKind }).mem
          none (.full s l) := ⟨_, e_s, rfl, hsp, hs0, hl.frame e_o⟩
      have hnd1 : (Shape.full s l).addrs.Nodup := by
        simp only [Shape.addrs, List.nodup_cons]
        exact ⟨hsl, hlnd⟩
      refine ⟨_, heff, ⟨.full s l, rfl, hsub1, hnd1, hfl.1⟩, ?_⟩
      intro p par pp hp hpar hpp
      simp only [Store.get] at hp hpp
      rw [han] at hp; cases hp
      rw [hap] at hpar; cases hpar
      rw [hsn] at hpp; cases hpp
      refine ⟨fun h => absurd h hskf, fun _ => ?_, fun _ h => absurd rfl h⟩
      have e1 := countLeaves_eq hsub1 hnd1
      have e0 := countLeaves_eq hsub0 hnd0
      simp only [Shape.addr] at e1 e0
      rw [e1, e0]
      simp [Shape.leaves]
    · -- the split has a parent `g`
      obtain ⟨g, hg, hgm⟩ := c.holePar_mem hc none
      rw [hg] at hsp
      obtain ⟨gn, hgn, hgc⟩ := hctx.holePar_child hc hg
      have hlu : ∀ x ∈ l.addrs, x ∈ (Shape.node s l (.leaf a)).addrs := by
        intro x hx; simp [Shape.addrs, hx]
      have hla1 := hlu _ l.addr_mem_addrs
      have hlg : l.addr ≠ g := by
        intro e
        exact nodup_ctx_not_mem hnd (List.mem_append.mpr (Or.inl hgm)) (e ▸ hla1)
      obtain ⟨st1, hclose, hlen, hrnd1, e_g, e_l, e_other⟩ :=
        close_inner_effect st a s g l.addr an sn gn ln han hap hsn hskf (by omega) hsp hgn
          (panel.idx_nonneg_of_child hgc) (by rw [hidx]; simpa using hs0) hln hlg
      have hfc : ∀ x ∈ c.pre ++ c.post, x ≠ g → st1.mem[x]? = st.mem[x]? := by
        intro x hx hxg
        refine e_other x hxg ?_
        rintro rfl
        exact nodup_ctx_not_mem hnd hx hla1
      have hsub1 : Sub st1.mem none (c.plug l) := by
        rw [Sub_plug]
        refine ⟨hctx.splice hc (nodup_ctx_cons hnd (by simp [Shape.addrs])) hg hgn e_g hfc, ?_⟩
        rw [hg]
        refine hl.reparent ln hln e_l ?_ hlnd
        intro x hx hxr
        refine e_other x ?_ hxr
        rintro rfl
        exact nodup_ctx_not_mem hnd (List.mem_append.mpr (Or.inl hgm)) (hlu _ hx)
      have hnd1 : (c.plug l).addrs.Nodup := by
        rw [Ctx.plug_addrs]
        exact nodup_replace hnd hlnd (fun x hx => Or.inl (hlu x hx))
      have hroot1 : (c.plug l).rooted :=
        Ctx.rooted_plug c _ _ hroot hfl.1 (fun h => absurd h hc)
      have haddr : (c.plug l).addr = (c.plug (.node s l (.leaf a))).addr := by
        rw [Ctx.plug_addr, Ctx.plug_addr]; exact c.top_of_ne_hole hc _ _
      refine ⟨st1, hclose, ⟨_, haddr, hsub1, hnd1, hroot1⟩, ?_⟩
      intro p par pp hp hpar hpp
      simp only [Store.get] at hp hpp
      rw [han] at hp; cases hp
      rw [hap] at hpar; cases hpar
      rw [hsn] at hpp; cases hpp
      refine ⟨fun h => absurd h hskf, fun _ => ?_, fun _ _ => ?_⟩
      · rw [countLeaves_eq hsub0 hnd0, ← haddr, countLeaves_eq hsub1 hnd1]
        have := Ctx.plug_leaves_length c (.node s l (.leaf a)) l
        simp only [Shape.leaves, List.length_append, List.length_singleton] at this ⊢
        omega
      · refine ⟨an, s, sn, g, gn, l.addr, ln, han, hap, hsn, hsp, hgn, ?_, hln,
          panel.idx_nonneg_of_child hgc, e_g, e_l, ?_, hlen, hrnd1⟩
        · simp [hs0, hs1, hlna]
        · intro x hx hxr
          exact e_other x hx hxr
  · -- the leaf is the child of the `Full` root: nothing happens
    have hc := Ctx.rooted_full c s _ hroot
    subst hc
    simp only [Ctx.plug] at hsub hnd ha hroot ⊢
    obtain ⟨sn, hsn, hsk, hsp, hs0, ⟨an, han, hak, hap⟩⟩ := hsub
    have hsub0 : Sub st.mem none (.full s (.leaf a)) :=
      ⟨sn, hsn, hsk, hsp, hs0, ⟨an, han, hak, hap⟩⟩
    have heff : panel.closeMyself st a = some st := by
      simp only [panel.closeMyself, Store.get, han, hap, hsn, hsk, if_true]
    refine ⟨st, heff, ⟨_, rfl, hsub0, hnd, hroot⟩, ?_⟩
    intro p par pp hp hpar hpp
    simp only [Store.get] at hp hpp
    rw [han] at hp; cases hp
    rw [hap] at hpar; cases hpar
    rw [hsn] at hpp; cases hpp
    exact ⟨fun _ => rfl, fun h => absurd hsk h, fun h => absurd hsk h⟩

/-- A tree is untouched by a change of the fields `size` and `resize`. -/
theorem Sub.congr {mem mem1 : List panel} {t : Shape} :
    ∀ {par : Option Nat}, Sub mem par t →
      (∀ x ∈ t.addrs, ∀ n, mem[x]? = some n → ∃ n1, mem1[x]? = some n1 ∧ n1.kind = n.kind ∧
        n1.parent = n.parent ∧ n1.child0 = n.child0 ∧ n1.child1 = n.child1) →
      Sub mem1 par t := by
  induction t with
  | leaf a =>
    intro par h hf
    obtain ⟨n, hn, hk, hp⟩ := h
    obtain ⟨n1, hn1, e1, e2, -, -⟩ := hf a (by simp [Shape.addrs]) n hn
    exact ⟨n1, hn1, e1 ▸ hk, e2 ▸ hp⟩
  | node a l r ihl ihr =>
    intro par h hf
    obtain ⟨n, hn, hk, hp, h0, h1, hl, hr⟩ := h
    obtain ⟨n1, hn1, e1, e2, e3, e4⟩ := hf a (by simp [Shape.addrs]) n hn
    refine ⟨n1, hn1, e1 ▸ hk, e2 ▸ hp, e3 ▸ h0, e4 ▸ h1, ?_, ?_⟩
    · exact ihl hl (fun x hx => hf x (by simp [Shape.addrs, hx]))
    · exact ihr hr (fun x hx => hf x (by simp [Shape.addrs, hx]))
  | full a c ih =>
    intro par h hf
    obtain ⟨n, hn, hk, hp, h0, hc⟩ := h
    obtain ⟨n1, hn1, e1, e2, e3, -⟩ := hf a (by simp [Shape.addrs]) n hn
    refine ⟨n1, hn1, e1 ▸ hk, e2 ▸ hp, e3 ▸ h0, ?_⟩
    exact ih hc (fun x hx => hf x (by simp [Shape.addrs, hx]))

/-- The step of a write to `size` and `resize`. -/
theorem resize_step (src : Nat → Nat) (st : Store) (root a : Nat) (v : Int) (f : Bool)
    (hwf : WellFormed st root) (ha : a ∈ nodesOf st root) :
    ∃ st1, (Op.resize a v f).run src st = some st1 ∧ WellFormed st1 root ∧
      countLeaves st1 root = countLeaves st root ∧
      hasKind st1 fullPanelKind root = hasKind st fullPanelKind root := by
  obtain ⟨t, rfl, hsub, hnd, hroot⟩ := hwf
  rw [nodesOf_eq hsub hnd] at ha
  obtain ⟨p, hp⟩ := hsub.lookup a ha
  have hlt := (List.getElem?_eq_some.mp hp).1
  have hrun : (Op.resize a v f).run src st =
      some (st.put a { p with size := v, resize := f }) := by
    simp [Op.run, Store.get, hp]
  have hcg : ∀ (x : Nat) (n : panel), st.mem[x]? = some n →
      ∃ n1 : panel, (st.put a { p with size := v, resize := f }).mem[x]? = some n1 ∧
        n1.kind = n.kind ∧ n1.parent = n.parent ∧ n1.child0 = n.child0 ∧
        n1.child1 = n.child1 := by
    intro x n hn
    by_cases hx : a = x
    · subst hx
      rw [hp] at hn; cases hn
      exact ⟨{ p with size := v, resize := f }, by simp [Store.put, hlt], rfl, rfl, rfl, rfl⟩
    · exact ⟨n, by simp [Store.put, hx, hn], rfl, rfl, rfl, rfl⟩
  have hsub1 : Sub (st.put a { p with size := v, resize := f }).mem none t :=
    hsub.congr (fun x _ n hn => hcg x n hn)
  refine ⟨_, hrun, ⟨t, rfl, hsub1, hnd, hroot⟩, ?_, ?_⟩
  · rw [countLeaves_eq hsub1 hnd, countLeaves_eq hsub hnd]
  · obtain ⟨n, hn, -⟩ := hsub.top
    obtain ⟨n1, hn1, e1, -⟩ := hcg _ n hn
    rw [hasKind_eq _ hn1, hasKind_eq _ hn, e1]

theorem defaultTree_wf (mode : Int) (rootName leafName : List Char) (rnd : Nat) :
    WellFormed (defaultTree mode rootName leafName rnd) 0 := by
  refine ⟨.full 0 (.leaf 1), rfl, ?_, by decide, rfl⟩
  exact ⟨_, rfl, rfl, rfl, rfl, ⟨_, rfl, rfl, rfl⟩⟩

theorem countFull_of_wf {st : Store} {root : Nat} (h : WellFormed st root) :
    countFull st root = if hasKind st fullPanelKind root then 1 else 0 := by
  obtain ⟨t, rfl, hsub, hnd, hroot⟩ := h
  rw [countFull_eq hsub hnd]
  cases t with
  | leaf a => exact hroot.elim
  | node a l r =>
    obtain ⟨n, hn, hk, -⟩ := hsub
    have : hasKind st fullPanelKind a = false := by
      rw [hasKind_eq _ hn]; rcases hk with e | e <;> simp [e]
    simp [Shape.addr, this, Shape.fulls, hroot.1, hroot.2]
  | full a c =>
    obtain ⟨n, hn, hk, -⟩ := hsub
    have : hasKind st fullPanelKind a = true := by
      rw [hasKind_eq _ hn]; simp [hk]
    simp only [Shape.rooted] at hroot
    simp [Shape.addr, this, Shape.fulls, hroot]

theorem countLeaves_pos_of_wf {st : Store} {root : Nat} (h : WellFormed st root) :
    1 ≤ countLeaves st root := by
  obtain ⟨t, rfl, hsub, hnd, -⟩ := h
  rw [countLeaves_eq hsub hnd]
  exact t.leaves_length_pos

theorem root_of_wf {st : Store} {root : Nat} (h : WellFormed st root) :
    ∃ rn c, st.get root = some rn ∧ rn.parent = none ∧ rn.child0 = some c ∧
      (rn.kind = fullPanelKind ∨ rn.kind = splitHorizontalPanelKind ∨
        rn.kind = splitVerticalPanelKind) := by
  obtain ⟨t, rfl, hsub, -, hroot⟩ := h
  cases t with
  | leaf a => exact hroot.elim
  | node a l r =>
    obtain ⟨n, hn, hk, hp, h0, -⟩ := hsub
    exact ⟨n, _, hn, hp, h0, Or.inr hk⟩
  | full a c =>
    obtain ⟨n, hn, hk, hp, h0, -⟩ := hsub
    exact ⟨n, _, hn, hp, h0, Or.inl hk⟩

/-- Every offered action succeeds on a well-formed tree and keeps it well formed. -/
theorem op_step (src : Nat → Nat) (st : Store) (root : Nat) (op : Op)
    (hwf : WellFormed st root) (hv : op.valid st root = true) :
    ∃ st1, op.run src st = some st1 ∧ WellFormed st1 root := by
  cases op with
  | split a k =>
    simp only [Op.valid, Bool.and_eq_true, Bool.or_eq_true, decide_eq_true_eq] at hv
    obtain ⟨st1, h1, h2, -⟩ := split_step src st root a k hwf hv.1 hv.2
    exact ⟨st1, h1, h2⟩
  | close a =>
    simp only [Op.valid, decide_eq_true_eq] at hv
    obtain ⟨st1, h1, h2, -⟩ := close_step st root a hwf hv
    exact ⟨st1, h1, h2⟩
  | resize a v f =>
    simp only [Op.valid, Bool.and_eq_true, decide_eq_true_eq] at hv
    obtain ⟨st1, h1, h2, -⟩ := resize_step src st root a v f hwf hv.1
    exact ⟨st1, h1, h2⟩

/-- Every sequence of offered actions succeeds and ends in a well-formed tree. -/
theorem run_wf (src : Nat → Nat) (root : Nat) :
    ∀ (ops : List Op) (st : Store), WellFormed st root → validRun src root st ops = true →
      ∃ st1, runOps src st ops = some st1 ∧ WellFormed st1 root := by
  intro ops
  induction ops with
  | nil => intro st hwf _; exact ⟨st, rfl, hwf⟩
  | cons op ops ih =>
    intro st hwf hv
    simp only [validRun, Bool.and_eq_true] at hv
    obtain ⟨st1, h1, h2⟩ := op_step src st root op hwf hv.1
    have hv2 := hv.2
    rw [h1] at hv2
    obtain ⟨st2, h3, h4⟩ := ih st1 h2 hv2
    exact ⟨st2, by simp [runOps, h1, h3], h4⟩

/-- A sequence of offered `split` calls adds one leaf per call and never
makes the root a `Full` panel again. -/
theorem run_splits (src : Nat → Nat) (root : Nat) :
    ∀ (ops : List Op) (st : Store), WellFormed st root → validRun src root st ops = true →
      (∀ op ∈ ops, op.isSplit = true) →
      ∃ st1, runOps src st ops = some st1 ∧ WellFormed st1 root ∧
        countLeaves st1 root = countLeaves st root + ops.length ∧
        (hasKind st fullPanelKind root = false → hasKind st1 fullPanelKind root = false) := by
  intro ops
  induction ops with
  | nil => intro st hwf _ _; exact ⟨st, rfl, hwf, by simp, id⟩
  | cons op ops ih =>
    intro st hwf hv hs
    simp only [validRun, Bool.and_eq_true] at hv
    have hop := hs op (by simp)
    cases op with
    | split a k =>
      have hv1 := hv.1
      simp only [Op.valid, Bool.and_eq_true, Bool.or_eq_true, decide_eq_true_eq] at hv1
      obtain ⟨st1, h1, h2, h3, -, h5, -⟩ := split_step src st root a k hwf hv1.1 hv1.2
      have hv2 := hv.2
      simp only [Op.run, h1] at hv2
      obtain ⟨st2, h6, h7, h8, h9⟩ := ih st1 h2 hv2 (fun o ho => hs o (by simp [ho]))
      refine ⟨st2, by simp [runOps, Op.run, h1, h6], h7, ?_, fun h => h9 (h5 h)⟩
      rw [h8, h3]; simp; omega
    | close a => simp [Op.isSplit] at hop
    | resize a v f => simp [Op.isSplit] at hop

theorem leavesOf_defaultTree (mode : Int) (rootName leafName : List Char) (rnd : Nat) :
    leavesOf (defaultTree mode rootName leafName rnd) 0 = [1] := by
  have h := defaultTree_wf mode rootName leafName rnd
  have hs : Sub (defaultTree mode rootName leafName rnd).mem none (.full 0 (.leaf 1)) :=
    ⟨_, rfl, rfl, rfl, rfl, ⟨_, rfl, rfl, rfl⟩⟩
  exact leavesOf_eq hs (by decide)

/-! ### The claims on the tree mutator -/

/-- What `split` does on a leaf: in every tree reached from the single-leaf
default tree by split, close and resize steps, `split` on a leaf `n` with one
of the two axes succeeds, and afterwards the parent of `n` is a split of that
axis whose first child is `n` itself (unchanged but for its parent pointer) and
whose second child is a new leaf with the mode of `n`; the split is a new panel
of size `0` in the former slot of `n`, or the former `Full` root with its kind
and `child[1]` rewritten; no other panel changes. -/
theorem split_leaf_postcondition (src : Nat → Nat) (mode : Int) (rootName leafName : List Char)
    (rnd : Nat) (ops : List Op) (st : Store)
    (hv : validRun src 0 (defaultTree mode rootName leafName rnd) ops = true)
    (hr : runOps src (defaultTree mode rootName leafName rnd) ops = some st)
    (n : Nat) (hn : n ∈ leavesOf st 0) (axis : panelKind)
    (hax : axis = splitHorizontalPanelKind ∨ axis = splitVerticalPanelKind) :
    ∃ st1, panel.split src st n axis = some st1 ∧ SplitPost st st1 n axis := by
  obtain ⟨st0, h0, hwf⟩ := run_wf src 0 ops _ (defaultTree_wf mode rootName leafName rnd) hv
  rw [hr] at h0; cases h0
  obtain ⟨st1, h1, -, -, h4, -⟩ := split_step src st 0 n axis hwf hn hax
  exact ⟨st1, h1, h4⟩

theorem split_leaf_postcondition_witness :
    validRun exampleSrc 0 (defaultTree 0 [] [] 0) [.split 1 splitHorizontalPanelKind] = true ∧
    runOps exampleSrc (defaultTree 0 [] [] 0) [.split 1 splitHorizontalPanelKind] =
      some twoLeaves ∧
    2 ∈ leavesOf twoLeaves 0 ∧
    ∃ st1, panel.split exampleSrc twoLeaves 2 splitVerticalPanelKind = some st1 ∧
      SplitPost twoLeaves st1 2 splitVerticalPanelKind :=
  ⟨by decide, by decide, by decide,
    split_leaf_postcondition exampleSrc 0 [] [] 0 [.split 1 splitHorizontalPanelKind] twoLeaves
      (by decide) (by decide) 2 (by decide) splitVerticalPanelKind (Or.inr rfl)⟩

/-- C4 at the failing input: from the default tree, `split` (horizontal) on
the leaf `1`, a write of the size `57` to the root split, `closeMyself` on the
new leaf `2` and `split` (vertical) on the leaf `1` are all offered; before the
last call the leaf `1` is the only leaf and its parent is the `Full` root `0`,
which still has the size `57`; after the call the parent of the leaf `1` is the
root, now a `Vertical` split with first child `1` and the new leaf `3` (mode of
the leaf `1`) as second child, but its size is `57`, not `0`: the branch of
`split` for a `Full` parent does not reset the size, the other branch creates
the split with `size: 0`. -/
theorem split_below_full_root_stale_size :
    validRun exampleSrc 0 exampleTree
      [.split 1 splitHorizontalPanelKind, .resize 0 57 false, .close 2,
       .split 1 splitVerticalPanelKind] = true ∧
    (runOps exampleSrc exampleTree
      [.split 1 splitHorizontalPanelKind, .resize 0 57 false, .close 2]).map
      (fun st => leavesOf st 0) = some [1] ∧
    ((runOps exampleSrc exampleTree
      [.split 1 splitHorizontalPanelKind, .resize 0 57 false, .close 2]).bind
      (fun st => st.get 1)).map (fun n => n.parent) = some (some 0) ∧
    ((runOps exampleSrc exampleTree
      [.split 1 splitHorizontalPanelKind, .resize 0 57 false, .close 2]).bind
      (fun st => st.get 0)).map (fun n => n.kind) = some fullPanelKind ∧
    ((runOps exampleSrc exampleTree
      [.split 1 splitHorizontalPanelKind, .resize 0 57 false, .close 2]).bind
      (fun st => st.get 0)).map (fun n => n.size) = some 57 ∧
    (((runOps exampleSrc exampleTree
      [.split 1 splitHorizontalPanelKind, .resize 0 57 false, .close 2]).bind
      (fun st => panel.split exampleSrc st 1 splitVerticalPanelKind)).bind
      (fun st => st.get 1)).map (fun n => n.parent) = some (some 0) ∧
    (((runOps exampleSrc exampleTree
      [.split 1 splitHorizontalPanelKind, .resize 0 57 false, .close 2]).bind
      (fun st => panel.split exampleSrc st 1 splitVerticalPanelKind)).bind
      (fun st => st.get 0)).map (fun n => n.kind) = some splitVerticalPanelKind ∧
    (((runOps exampleSrc exampleTree
      [.split 1 splitHorizontalPanelKind, .resize 0 57 false, .close 2]).bind
      (fun st => panel.split exampleSrc st 1 splitVerticalPanelKind)).bind
      (fun st => st.get 0)).map (fun n => n.child0) = some (some 1) ∧
    (((runOps exampleSrc exampleTree
      [.split 1 splitHorizontalPanelKind, .resize 0 57 false, .close 2]).bind
      (fun st => panel.split exampleSrc st 1 splitVerticalPanelKind)).bind
      (fun st => st.get 0)).map (fun n => n.child1) = some (some 3) ∧
    (((runOps exampleSrc exampleTree
      [.split 1 splitHorizontalPanelKind, .resize 0 57 false, .close 2]).bind
      (fun st => panel.split exampleSrc st 1 splitVerticalPanelKind)).bind
      (fun st => st.get 3)).map (fun n => n.kind) = some infoPanelKind ∧
    (((runOps exampleSrc exampleTree
      [.split 1 splitHorizontalPanelKind, .resize 0 57 false, .close 2]).bind
      (fun st => panel.split exampleSrc st 1 splitVerticalPanelKind)).bind
      (fun st => st.get 0)).map (fun n => n.size) = some 57 := by
  decide

/-- C5 (as stated) fails after the first call: `split` below the `Full` root
turns the root itself into the split, and the tree has no `Full` panel left. -/
theorem split_keeps_full_counterexample :
    validRun exampleSrc 0 exampleTree [.split 1 splitHorizontalPanelKind] = true ∧
    (runOps exampleSrc exampleTree [.split 1 splitHorizontalPanelKind]).map
      (fun st => (countFull st 0, (st.get 0).map (fun p => p.kind))) =
      some (0, some splitHorizontalPanelKind) := by
  decide

/-- C5 (amended): for every sequence of `split` calls, each on a leaf of the
current tree, from the single-leaf default tree, the root stays the same
parentless panel, and the tree has exactly one `Full` panel (the root) before
the first call and no `Full` panel after any call. -/
theorem splits_full_count (src : Nat → Nat) (mode : Int) (rootName leafName : List Char)
    (rnd : Nat) (ops : List Op)
    (hv : validRun src 0 (defaultTree mode rootName leafName rnd) ops = true)
    (hs : ∀ op ∈ ops, op.isSplit = true) :
    ∃ st1 rn, runOps src (defaultTree mode rootName leafName rnd) ops = some st1 ∧
      countFull st1 0 = (if ops = [] then 1 else 0) ∧
      st1.get 0 = some rn ∧ rn.parent = none ∧
      (ops ≠ [] → rn.kind = splitHorizontalPanelKind ∨ rn.kind = splitVerticalPanelKind) := by
  have hwf := defaultTree_wf mode rootName leafName rnd
  cases ops with
  | nil =>
    refine ⟨_, _, rfl, ?_, rfl, rfl, fun h => absurd rfl h⟩
    rw [countFull_of_wf hwf]
    simp [hasKind, Store.get, defaultTree]
  | cons op ops =>
    simp only [validRun, Bool.and_eq_true] at hv
    have hop := hs op (by simp)
    cases op with
    | split a k =>
      have hv1 := hv.1
      simp only [Op.valid, Bool.and_eq_true, Bool.or_eq_true, decide_eq_true_eq] at hv1
      obtain ⟨st1, h1, h2, -, -, -, h6⟩ := split_step src _ 0 a k hwf hv1.1 hv1.2
      have ha : a = 1 := by
        have := hv1.1
        rw [leavesOf_defaultTree] at this
        simpa using this
      subst ha
      have hk1 : hasKind st1 fullPanelKind 0 = false := h6 _ rfl rfl
      have hv2 := hv.2
      simp only [Op.run, h1] at hv2
      obtain ⟨st2, h7, h8, -, h9⟩ :=
        run_splits src 0 ops st1 h2 hv2 (fun o ho => hs o (by simp [ho]))
      have hk2 := h9 hk1
      obtain ⟨rn, c, hrn, hrp, -, hrk⟩ := root_of_wf h8
      refine ⟨st2, rn, by simp [runOps, Op.run, h1, h7], ?_, hrn, hrp, fun _ => ?_⟩
      · rw [countFull_of_wf h8, hk2]; simp
      · rcases hrk with e | e
        · simp [hasKind, hrn, e] at hk2
        · exact e
    | close a => simp [Op.isSplit] at hop
    | resize a v f => simp [Op.isSplit] at hop

theorem splits_full_count_witness :
    validRun exampleSrc 0 (defaultTree 0 [] [] 0)
      [.split 1 splitHorizontalPanelKind, .split 1 splitVerticalPanelKind] = true ∧
    (∀ op ∈ [Op.split 1 splitHorizontalPanelKind, Op.split 1 splitVerticalPanelKind],
      op.isSplit = true) ∧
    ∃ st1 rn, runOps exampleSrc (defaultTree 0 [] [] 0)
        [.split 1 splitHorizontalPanelKind, .split 1 splitVerticalPanelKind] = some st1 ∧
      countFull st1 0 =
        (if [Op.split 1 splitHorizontalPanelKind, Op.split 1 splitVerticalPanelKind] = []
          then 1 else 0) ∧
      st1.get 0 = some rn ∧ rn.parent = none ∧
      ([Op.split 1 splitHorizontalPanelKind, Op.split 1 splitVerticalPanelKind] ≠ [] →
        rn.kind = splitHorizontalPanelKind ∨ rn.kind = splitVerticalPanelKind) :=
  ⟨by decide, by decide,
    splits_full_count exampleSrc 0 [] [] 0
      [.split 1 splitHorizontalPanelKind, .split 1 splitVerticalPanelKind]
      (by decide) (by decide)⟩

/-- C6: for every sequence of `split` calls, each on a leaf of the current
tree and with one of the two axes, from the single-leaf default tree, every
call succeeds and the number of leaves reachable from the root after `k` calls
is `1 + k`. -/
theorem splits_leaf_count (src : Nat → Nat) (mode : Int) (rootName leafName : List Char)
    (rnd : Nat) (ops : List Op)
    (hv : validRun src 0 (defaultTree mode rootName leafName rnd) ops = true)
    (hs : ∀ op ∈ ops, op.isSplit = true) :
    ∃ st1, runOps src (defaultTree mode rootName leafName rnd) ops = some st1 ∧
      countLeaves st1 0 = 1 + ops.length := by
  obtain ⟨st1, h1, -, h3, -⟩ :=
    run_splits src 0 ops _ (defaultTree_wf mode rootName leafName rnd) hv hs
  refine ⟨st1, h1, ?_⟩
  rw [h3]
  simp only [countLeaves, leavesOf_defaultTree, List.length_singleton]

theorem splits_leaf_count_witness :
    validRun exampleSrc 0 (defaultTree 0 [] [] 0)
      [.split 1 splitHorizontalPanelKind, .split 2 splitVerticalPanelKind] = true ∧
    (∀ op ∈ [Op.split 1 splitHorizontalPanelKind, Op.split 2 splitVerticalPanelKind],
      op.isSplit = true) ∧
    ∃ st1, runOps exampleSrc (defaultTree 0 [] [] 0)
        [.split 1 splitHorizontalPanelKind, .split 2 splitVerticalPanelKind] = some st1 ∧
      countLeaves st1 0 =
        1 + [Op.split 1 splitHorizontalPanelKind, Op.split 2 splitVerticalPanelKind].length :=
  ⟨by decide, by decide,
    splits_leaf_count exampleSrc 0 [] [] 0
      [.split 1 splitHorizontalPanelKind, .split 2 splitVerticalPanelKind]
      (by decide) (by decide)⟩

/-- C7: in a well-formed tree, `closeMyself` on a leaf `l` whose parent `s` is
a split other than the root succeeds; afterwards the slot of `s` in the parent
of `s` holds the former sibling of `l`, the sibling is unchanged but for its
parent pointer (same name and mode) and so is every panel below it, and the
number of leaves reachable from the root is one less. -/
theorem close_promotes_sibling (st : Store) (root : Nat) (hwf : WellFormed st root)
    (l : Nat) (hl : l ∈ leavesOf st root) (p : panel) (s : Nat) (sn : panel)
    (hp : st.get l = some p) (hpar : p.parent = some s) (hs : st.get s = some sn)
    (hk : sn.kind = splitHorizontalPanelKind ∨ sn.kind = splitVerticalPanelKind)
    (hroot : s ≠ root) :
    ∃ st1, panel.closeMyself st l = some st1 ∧ ClosePost st st1 l ∧
      countLeaves st1 root + 1 = countLeaves st root ∧ WellFormed st1 root := by
  obtain ⟨st1, h1, h2, h3⟩ := close_step st root l hwf hl
  have hkf : sn.kind ≠ fullPanelKind := by rcases hk with e | e <;> rw [e] <;> decide
  obtain ⟨-, h4, h5⟩ := h3 p s sn hp hpar hs
  exact ⟨st1, h1, h5 hkf hroot, h4 hkf, h2⟩

theorem close_promotes_sibling_witness :
    WellFormed threeLeaves 0 ∧ 1 ∈ leavesOf threeLeaves 0 ∧
    threeLeaves.get 1 = some ({ kind := infoPanelKind, parent := some 3 } : panel) ∧
    threeLeaves.get 3 =
      some ({ kind := splitVerticalPanelKind, child0 := some 1, child1 := some 4,
              parent := some 0, name := "00000000".toList } : panel) ∧
    ∃ st1, panel.closeMyself threeLeaves 1 = some st1 ∧ ClosePost threeLeaves st1 1 ∧
      countLeaves st1 0 + 1 = countLeaves threeLeaves 0 ∧ WellFormed st1 0 :=
  have hwf : WellFormed threeLeaves 0 :=
    ⟨.node 0 (.node 3 (.leaf 1) (.leaf 4)) (.leaf 2), rfl,
      ⟨_, rfl, Or.inl rfl, rfl, rfl, rfl,
        ⟨_, rfl, Or.inr rfl, rfl, rfl, rfl, ⟨_, rfl, rfl, rfl⟩, ⟨_, rfl, rfl, rfl⟩⟩,
        ⟨_, rfl, rfl, rfl⟩⟩,
      by decide, ⟨rfl, rfl⟩⟩
  ⟨hwf, by decide, rfl, rfl,
    close_promotes_sibling threeLeaves 0 hwf 1 (by decide) _ 3 _ rfl rfl rfl (Or.inr rfl)
      (by decide)⟩

/-- C8: for every sequence of `split` and `closeMyself` calls (and writes to
the size of a split), each on a leaf (a split) of the current tree, from the
single-leaf default tree, every call succeeds, the tree always has at least one
leaf reachable from the root, `child[0]` of the root is never nil, and
`closeMyself` on a leaf whose parent is the `Full` root leaves the store as it
is. -/
theorem last_panel_stays (src : Nat → Nat) (mode : Int) (rootName leafName : List Char)
    (rnd : Nat) (ops : List Op)
    (hv : validRun src 0 (defaultTree mode rootName leafName rnd) ops = true) :
    ∃ st1, runOps src (defaultTree mode rootName leafName rnd) ops = some st1 ∧
      1 ≤ countLeaves st1 0 ∧
      (∃ rn c, st1.get 0 = some rn ∧ rn.child0 = some c) ∧
      ∀ l ∈ leavesOf st1 0, ∀ p par pp, st1.get l = some p → p.parent = some par →
        st1.get par = some pp → pp.kind = fullPanelKind →
        panel.closeMyself st1 l = some st1 := by
  obtain ⟨st1, h1, hwf⟩ := run_wf src 0 ops _ (defaultTree_wf mode rootName leafName rnd) hv
  refine ⟨st1, h1, countLeaves_pos_of_wf hwf, ?_, ?_⟩
  · obtain ⟨rn, c, hrn, -, hc, -⟩ := root_of_wf hwf
    exact ⟨rn, c, hrn, hc⟩
  · intro l hl p par pp hp hpar hpp hk
    obtain ⟨st2, h2, -, h3⟩ := close_step st1 0 l hwf hl
    rw [h2, (h3 p par pp hp hpar hpp).1 hk]

theorem last_panel_stays_witness :
    validRun exampleSrc 0 (defaultTree 0 [] [] 0)
      [.split 1 splitHorizontalPanelKind, .close 1, .close 2] = true ∧
    ∃ st1, runOps exampleSrc (defaultTree 0 [] [] 0)
        [.split 1 splitHorizontalPanelKind, .close 1, .close 2] = some st1 ∧
      1 ≤ countLeaves st1 0 ∧
      (∃ rn c, st1.get 0 = some rn ∧ rn.child0 = some c) ∧
      ∀ l ∈ leavesOf st1 0, ∀ p par pp, st1.get l = some p → p.parent = some par →
        st1.get par = some pp → pp.kind = fullPanelKind →
        panel.closeMyself st1 l = some st1 :=
  ⟨by decide,
    last_panel_stays exampleSrc 0 [] [] 0
      [.split 1 splitHorizontalPanelKind, .close 1, .close 2] (by decide)⟩

/-! ### Decimal sizes -/

theorem digitChar_spec (k : Nat) (hk : k < 10) :
    isDigit (Nat.digitChar k) = true ∧ (Nat.digitChar k).toNat - '0'.toNat = k := by
  interval_cases k <;> decide

theorem digitsValue_append (l : List Char) (c : Char) :
    digitsValue (l ++ [c]) = digitsValue l * 10 + (c.toNat - '0'.toNat) := by
  simp [digitsValue, List.foldl_append]

theorem toDigitsCore_spec : ∀ (fuel n : Nat) (ds : List Char), n < fuel →
    ∃ l, Nat.toDigitsCore 10 fuel n ds = l ++ ds ∧ l ≠ [] ∧
      (∀ c ∈ l, isDigit c = true) ∧ digitsValue l = n := by
  intro fuel
  induction fuel with
  | zero => intro n ds h; omega
  | succ f ih =>
    intro n ds h
    obtain ⟨hd, hv⟩ := digitChar_spec (n % 10) (Nat.mod_lt _ (by decide))
    by_cases h0 : n / 10 = 0
    · refine ⟨[Nat.digitChar (n % 10)], by simp [Nat.toDigitsCore, h0], by simp, ?_, ?_⟩
      · intro c hc; rw [List.mem_singleton.mp hc]; exact hd
      · have : digitsValue [Nat.digitChar (n % 10)] = n % 10 := by
          simp only [digitsValue, List.foldl]; omega
        rw [this]; omega
    · obtain ⟨l, hl, -, hld, hlv⟩ := ih (n / 10) (Nat.digitChar (n % 10) :: ds) (by omega)
      refine ⟨l ++ [Nat.digitChar (n % 10)], ?_, by simp, ?_, ?_⟩
      · simp [Nat.toDigitsCore, h0, hl]
      · intro c hc
        rcases List.mem_append.mp hc with hc | hc
        · exact hld c hc
        · rw [List.mem_singleton.mp hc]; exact hd
      · rw [digitsValue_append, hlv, hv]; omega

theorem toDigits_spec (n : Nat) :
    Nat.toDigits 10 n ≠ [] ∧ (∀ c ∈ Nat.toDigits 10 n, isDigit c = true) ∧
      digitsValue (Nat.toDigits 10 n) = n := by
  obtain ⟨l, hl, hne, hd, hv⟩ := toDigitsCore_spec (n + 1) n [] (by omega)
  have : Nat.toDigits 10 n = l := by simpa [Nat.toDigits] using hl
  rw [this]
  exact ⟨hne, hd, hv⟩

/-- The decimal form of a size that fits an `int` is read back by the digit
loop and `Atoi`, up to the first byte that is not a digit. -/
theorem fmtInt_roundtrip (sz : Int) (h0 : 0 ≤ sz) (h1 : sz < 2 ^ 63) (c : Char)
    (hc : isDigit c = false) (rest : List Char) :
    atoi ((fmtInt sz ++ c :: rest).takeWhile isDigit) = sz ∧
      (fmtInt sz ++ c :: rest).dropWhile isDigit = c :: rest := by
  obtain ⟨hne, hd, hv⟩ := toDigits_spec sz.toNat
  have hf : fmtInt sz = Nat.toDigits 10 sz.toNat := by
    simp [fmtInt, not_lt.mpr h0]
  rw [hf]
  have ht : (Nat.toDigits 10 sz.toNat ++ c :: rest).takeWhile isDigit =
      Nat.toDigits 10 sz.toNat := by
    rw [List.takeWhile_append_of_pos hd]
    simp [List.takeWhile, hc]
  have hdr : (Nat.toDigits 10 sz.toNat ++ c :: rest).dropWhile isDigit = c :: rest := by
    rw [List.dropWhile_append_of_pos hd]
    simp [List.dropWhile, hc]
  refine ⟨?_, hdr⟩
  rw [ht]
  have hlt : sz.toNat < 2 ^ 63 := by omega
  simp only [atoi, hne, if_false, hv, hlt, if_true]
  omega

/-- Every mode of the catalogue has a code, which is a letter, and the code
leads back to the mode. -/
theorem mode_code (m : Int) (hm : modeOk m) :
    ∃ c, infoModeToCode (infoModes.getD m.toNat "") = some c ∧
      infoModeIdx (codeToInfoMode c) = m ∧ isDigit c = false ∧
      c ≠ '0' ∧ c ≠ '_' ∧ c ≠ '|' := by
  obtain ⟨h0, h1⟩ := hm
  obtain ⟨k, rfl⟩ := Int.eq_ofNat_of_zero_le h0
  have hk : k < 13 := by omega
  simp only [Int.toNat_ofNat]
  interval_cases k <;> exact ⟨_, rfl, by decide, by decide, by decide, by decide, by decide⟩

/-! ### Serialization -/

theorem serialize_fuel_pos_leaf (mem : List panel) (a : Nat) (n : panel) (f : Nat)
    (out : List Char) (hn : mem[a]? = some n) (hk : n.kind = infoPanelKind) :
    panel.serialize mem (f + 1) (some a) out =
      if 0 ≤ n.infoMode ∧ n.infoMode < infoModes.length then
        match infoModeToCode (infoModes.getD n.infoMode.toNat "") with
        | some code => some (.ok (out ++ [code]))
        | none => some (.error (.noCode (infoModes.getD n.infoMode.toNat "")))
      else some (.error .indexOutOfRange) := by
  simp only [panel.serialize, hn, hk]

/-- What `serialize` does on a tree: it appends the description, or it panics
with the index error of `infoModes[p.infoMode]` at the first leaf whose mode is
not in the catalogue. -/
theorem serialize_holds (mem : List panel) (d : Descr) :
    ∀ (p : Option Nat), Holds mem p d → ∀ fuel, d.depth ≤ fuel → ∀ out,
      panel.serialize mem fuel p out =
        some (if ∀ m ∈ d.modes, modeOk m then .ok (out ++ d.text) else .error .indexOutOfRange) := by
  induction d with
  | leaf m =>
    intro p h fuel hf out
    obtain ⟨a, n, rfl, hn, hk, hm⟩ := h
    cases fuel with
    | zero => simp [Descr.depth] at hf
    | succ f =>
      rw [serialize_fuel_pos_leaf mem a n f out hn hk, hm]
      by_cases hok : modeOk m
      · obtain ⟨c, hc, -⟩ := mode_code m hok
        have h1 : 0 ≤ m ∧ m < (infoModes.length : Int) := by
          simpa [infoModes, modeOk] using hok
        have ht : (Descr.leaf m).text = [c] := by simp only [Descr.text, hc, Option.toList]
        have hall : ∀ x ∈ (Descr.leaf m).modes, modeOk x := by
          simpa [Descr.modes] using hok
        rw [if_pos h1, hc, if_pos hall, ht]
      · have h1 : ¬ (0 ≤ m ∧ m < (infoModes.length : Int)) := by
          simpa [infoModes, modeOk] using hok
        have hall : ¬ ∀ x ∈ (Descr.leaf m).modes, modeOk x := by
          simpa [Descr.modes] using hok
        rw [if_neg h1, if_neg hall]
  | split k sz l r ihl ihr =>
    intro p h fuel hf out
    obtain ⟨a, n, rfl, hn, hk2, hk, hsz, hl, hr⟩ := h
    cases fuel with
    | zero => simp [Descr.depth] at hf
    | succ f =>
      simp only [Descr.depth] at hf
      have e0 := fun o => ihl _ hl f (by omega) o
      have e1 := fun o => ihr _ hr f (by omega) o
      have hmodes : (∀ m ∈ (Descr.split k sz l r).modes, modeOk m) ↔
          ((∀ m ∈ l.modes, modeOk m) ∧ ∀ m ∈ r.modes, modeOk m) := by
        simp only [Descr.modes, List.mem_append]
        constructor
        · intro hh; exact ⟨fun m hm => hh m (Or.inl hm), fun m hm => hh m (Or.inr hm)⟩
        · rintro ⟨h1, h2⟩ m (hm | hm)
          · exact h1 m hm
          · exact h2 m hm
      have hstep : panel.serialize mem (f + 1) (some a) out =
          match panel.serialize mem f n.child0
              (out ++ (if k = splitVerticalPanelKind then '|' else '_') :: fmtInt sz) with
          | some (.ok out1) => panel.serialize mem f n.child1 out1
          | r => r := by
        rcases hk2 with rfl | rfl <;> simp only [panel.serialize, hn, hk, hsz] <;> rfl
      rw [hstep]
      by_cases hlo : ∀ m ∈ l.modes, modeOk m
      · rw [e0, if_pos hlo]
        simp only
        rw [e1]
        by_cases hro : ∀ m ∈ r.modes, modeOk m
        · rw [if_pos hro, if_pos (hmodes.mpr ⟨hlo, hro⟩)]
          simp [Descr.text]
        · rw [if_neg hro, if_neg (fun hh => hro (hmodes.mp hh).2)]
      · rw [e0, if_neg hlo, if_neg (fun hh => hlo (hmodes.mp hh).1)]
  | full c ih =>
    intro p h fuel hf out
    obtain ⟨a, n, rfl, hn, hk, hc⟩ := h
    cases fuel with
    | zero => simp [Descr.depth] at hf
    | succ f =>
      simp only [Descr.depth] at hf
      have e0 := fun o => ih _ hc f (by omega) o
      simp [panel.serialize, hn, hk, e0, Descr.modes, Descr.text]

/-- C3: for a tree of `Full`, split and `Info` panels with non-nil children,
`String()` returns the empty string and an error exactly when some leaf has a
mode outside the catalogue `0..12`; when every mode is in the catalogue, the
lookup of its code succeeds for every leaf, and `String()` returns the whole
description and a nil error. -/
theorem string_fails_iff_mode_outside (mem : List panel) (p : Option Nat) (d : Descr)
    (fuel : Nat) (h : Holds mem p d) (hf : d.depth ≤ fuel) :
    ((∃ m ∈ d.modes, ¬ modeOk m) ↔ ∃ e, panel.String mem fuel p = some ([], some e)) ∧
    ((∀ m ∈ d.modes, modeOk m) →
      (∀ m ∈ d.modes, ∃ c, infoModeToCode (infoModes.getD m.toNat "") = some c) ∧
      panel.String mem fuel p = some (d.text, none)) := by
  have hs := serialize_holds mem d p h fuel hf []
  by_cases hok : ∀ m ∈ d.modes, modeOk m
  · have e : panel.String mem fuel p = some (d.text, none) := by
      rw [if_pos hok] at hs
      simp [panel.String, hs]
    refine ⟨⟨?_, ?_⟩, fun _ => ⟨?_, e⟩⟩
    · rintro ⟨m, hm, hbad⟩
      exact absurd (hok m hm) hbad
    · rintro ⟨e1, he⟩
      rw [e] at he
      simp at he
    · intro m hm
      obtain ⟨c, hc, -⟩ := mode_code m (hok m hm)
      exact ⟨c, hc⟩
  · have e : panel.String mem fuel p = some ([], some .indexOutOfRange) := by
      rw [if_neg hok] at hs
      simp [panel.String, hs]
    refine ⟨⟨fun _ => ⟨_, e⟩, fun _ => ?_⟩, fun h => absurd h hok⟩
    by_contra hne
    exact hok (fun m hm => by
      by_contra hb
      exact hne ⟨m, hm, hb⟩)

theorem string_fails_iff_mode_outside_witness :
    Holds twoLeaves.mem (some 0) (.split splitHorizontalPanelKind 0 (.leaf 0) (.leaf 0)) ∧
    (Descr.split splitHorizontalPanelKind 0 (.leaf 0) (.leaf 0)).depth ≤ 2 ∧
    ((∃ m ∈ (Descr.split splitHorizontalPanelKind 0 (.leaf 0) (.leaf 0)).modes, ¬ modeOk m) ↔
      ∃ e, panel.String twoLeaves.mem 2 (some 0) = some ([], some e)) ∧
    ((∀ m ∈ (Descr.split splitHorizontalPanelKind 0 (.leaf 0) (.leaf 0)).modes, modeOk m) →
      (∀ m ∈ (Descr.split splitHorizontalPanelKind 0 (.leaf 0) (.leaf 0)).modes,
        ∃ c, infoModeToCode (infoModes.getD m.toNat "") = some c) ∧
      panel.String twoLeaves.mem 2 (some 0) =
        some ((Descr.split splitHorizontalPanelKind 0 (.leaf 0) (.leaf 0)).text, none)) :=
  have h : Holds twoLeaves.mem (some 0)
      (.split splitHorizontalPanelKind 0 (.leaf 0) (.leaf 0)) :=
    ⟨0, _, rfl, rfl, Or.inl rfl, rfl, rfl, ⟨1, _, rfl, rfl, rfl, rfl⟩, ⟨2, _, rfl, rfl, rfl, rfl⟩⟩
  ⟨h, by decide,
    string_fails_iff_mode_outside twoLeaves.mem (some 0)
      (.split splitHorizontalPanelKind 0 (.leaf 0) (.leaf 0)) 2 h (by decide)⟩

/-! ### Parsing -/

theorem HoldsFrom.holds {mem : List panel} {lo : Nat} {d : Descr} :
    ∀ {p : Option Nat}, HoldsFrom mem lo p d → Holds mem p d := by
  induction d with
  | leaf m =>
    rintro p ⟨a, n, rfl, -, hn, hk, hm⟩
    exact ⟨a, n, rfl, hn, hk, hm⟩
  | split k sz l r ihl ihr =>
    rintro p ⟨a, n, rfl, -, hn, hk2, hk, hsz, hl, hr⟩
    exact ⟨a, n, rfl, hn, hk2, hk, hsz, ihl hl, ihr hr⟩
  | full c ih =>
    rintro p ⟨a, n, rfl, -, hn, hk, hc⟩
    exact ⟨a, n, rfl, hn, hk, ih hc⟩

theorem HoldsFrom.frame_from (mem mem1 : List panel) (lo lo1 : Nat) {d : Descr} (hlo : lo1 ≤ lo)
    (hf : ∀ a, lo ≤ a → a < mem.length → mem1[a]? = mem[a]?) :
    ∀ {p : Option Nat}, HoldsFrom mem lo p d → HoldsFrom mem1 lo1 p d := by
  induction d with
  | leaf m =>
    rintro p ⟨a, n, rfl, hle, hn, hk, hm⟩
    have hlt := (List.getElem?_eq_some.mp hn).1
    exact ⟨a, n, rfl, by omega, by rw [hf a hle hlt, hn], hk, hm⟩
  | split k sz l r ihl ihr =>
    rintro p ⟨a, n, rfl, hle, hn, hk2, hk, hsz, hl, hr⟩
    have hlt := (List.getElem?_eq_some.mp hn).1
    exact ⟨a, n, rfl, by omega, by rw [hf a hle hlt, hn], hk2, hk, hsz, ihl hl, ihr hr⟩
  | full c ih =>
    rintro p ⟨a, n, rfl, hle, hn, hk, hc⟩
    have hlt := (List.getElem?_eq_some.mp hn).1
    exact ⟨a, n, rfl, by omega, by rw [hf a hle hlt, hn], hk, ih hc⟩

/-- The description of a tree of splits and leaves starts with a byte that is
not a digit. -/
theorem Descr.text_head (d : Descr) (hnf : d.noFull) (hm : ∀ m ∈ d.modes, modeOk m) :
    ∃ c tl, d.text = c :: tl ∧ isDigit c = false := by
  cases d with
  | leaf m =>
    obtain ⟨c, hc, -, hd, -⟩ := mode_code m (hm m (by simp [Descr.modes]))
    exact ⟨c, [], by simp only [Descr.text, hc, Option.toList], hd⟩
  | split k sz l r =>
    refine ⟨_, _, rfl, ?_⟩
    split_ifs <;> decide
  | full c => exact hnf.elim

theorem Descr.depth_le_text (d : Descr) (hm : ∀ m ∈ d.modes, modeOk m) :
    d.depth ≤ d.text.length := by
  induction d with
  | leaf m =>
    obtain ⟨c, hc, -⟩ := mode_code m (hm m (by simp [Descr.modes]))
    simp only [Descr.text, hc, Option.toList, Descr.depth, List.length_singleton, le_refl]
  | split k sz l r ihl ihr =>
    have h1 := ihl (fun m h => hm m (by simp [Descr.modes, h]))
    have h2 := ihr (fun m h => hm m (by simp [Descr.modes, h]))
    simp only [Descr.depth, Descr.text, List.length_cons, List.length_append]
    omega
  | full c ih =>
    have h1 := ih (fun m h => hm m (by simpa [Descr.modes] using h))
    simp only [Descr.depth, Descr.text, List.length_cons]
    omega

/-- One step of `parsePanelDescr` on a split. -/
theorem parse_split_unfold (src : Nat → Nat) (fuel : Nat) (tag : Char) (tl : List Char)
    (parent : Option Nat) (st : Store) (htag : tag = '_' ∨ tag = '|') :
    parsePanelDescrAux src (fuel + 1) (tag :: tl) parent st =
      match parsePanelDescrAux src fuel (tl.dropWhile isDigit) (some st.mem.length)
          ⟨st.mem ++ [⟨if tag = '|' then splitVerticalPanelKind else splitHorizontalPanelKind,
            atoi (tl.takeWhile isDigit), 0, none, none, parent, (randomname src st).1, false⟩],
            st.rnd + 8⟩ with
      | none => none
      | some (c0, rest, st3) =>
        match st3.get st.mem.length with
        | none => none
        | some n =>
          match parsePanelDescrAux src fuel rest (some st.mem.length)
              (st3.put st.mem.length { n with child0 := some c0 }) with
          | none => none
          | some (c1, rest, st5) =>
            match st5.get st.mem.length with
            | none => none
            | some n => some (st.mem.length, rest, st5.put st.mem.length
                { n with child1 := some c1 }) := by
  have h0 : tag ≠ '0' := by rcases htag with rfl | rfl <;> decide
  simp only [parsePanelDescrAux, h0, if_false, htag, if_true, randomname, Store.alloc]

theorem getElem?_put_ne (st : Store) (a x : Nat) (n : panel) (h : a ≠ x) :
    (st.put a n).mem[x]? = st.mem[x]? := by
  simp [Store.put, h]

theorem getElem?_put_self (st : Store) (a : Nat) (n : panel) (h : a < st.mem.length) :
    (st.put a n).mem[a]? = some n := by
  simp [Store.put, h]

/-- Parsing the description of a tree of splits and leaves, followed by any
bytes, builds the tree at the next free addresses and stops in front of the
bytes that follow. -/
theorem parse_text (src : Nat → Nat) (d : Descr) :
    ∀ (mem0 : List panel) (p0 : Option Nat), Holds mem0 p0 d → d.noFull →
      (∀ s ∈ d.sizes, 0 ≤ s ∧ s < 2 ^ 63) → (∀ m ∈ d.modes, modeOk m) →
      ∀ fuel, d.depth ≤ fuel → ∀ (rest : List Char) (parent : Option Nat) (st : Store),
        ∃ st1 qn, parsePanelDescrAux src fuel (d.text ++ rest) parent st =
            some (st.mem.length, rest, st1) ∧
          HoldsFrom st1.mem st.mem.length (some st.mem.length) d ∧
          (∀ a, a < st.mem.length → st1.mem[a]? = st.mem[a]?) ∧
          st.mem.length < st1.mem.length ∧
          st1.mem[st.mem.length]? = some qn ∧ qn.parent = parent := by
  induction d with
  | leaf m =>
    intro mem0 p0 _ _ _ hm fuel hf rest parent st
    obtain ⟨c, hc, hidx, -, h0, h1, h2⟩ := mode_code m (hm m (by simp [Descr.modes]))
    have ht : (Descr.leaf m).text = [c] := by simp only [Descr.text, hc, Option.toList]
    cases fuel with
    | zero => simp [Descr.depth] at hf
    | succ f =>
      rw [ht]
      have h12 : ¬ (c = '_' ∨ c = '|') := by tauto
      have hp : parsePanelDescrAux src (f + 1) ([c] ++ rest) parent st =
          some (st.mem.length, rest, ⟨st.mem ++ [⟨infoPanelKind, 0,
            infoModeIdx (codeToInfoMode c), none, none, parent, (randomname src st).1, false⟩],
            st.rnd + 8⟩) := by
        simp only [List.singleton_append, parsePanelDescrAux, h0, if_false, h12, randomname,
          Store.alloc]
        rfl
      have hlook : (st.mem ++ [(⟨infoPanelKind, 0, infoModeIdx (codeToInfoMode c), none, none,
          parent, (randomname src st).1, false⟩ : panel)])[st.mem.length]? =
          some ⟨infoPanelKind, 0, infoModeIdx (codeToInfoMode c), none, none, parent,
            (randomname src st).1, false⟩ := by simp
      refine ⟨_, _, hp, ⟨_, _, rfl, le_refl _, hlook, rfl, hidx⟩, ?_, ?_, hlook, rfl⟩
      · intro a ha
        simp [List.getElem?_append_left, ha]
      · simp
  | split k sz l r ihl ihr =>
    intro mem0 p0 h hnf hsz hm fuel hf rest parent st
    obtain ⟨a0, n0, rfl, hn0, hk2, -, -, hl0, hr0⟩ := h
    cases fuel with
    | zero => simp [Descr.depth] at hf
    | succ f =>
      simp only [Descr.depth] at hf
      have hml : ∀ m ∈ l.modes, modeOk m := fun m h => hm m (by simp [Descr.modes, h])
      have hmr : ∀ m ∈ r.modes, modeOk m := fun m h => hm m (by simp [Descr.modes, h])
      have hsl : ∀ s ∈ l.sizes, 0 ≤ s ∧ s < 2 ^ 63 :=
        fun s h => hsz s (by simp [Descr.sizes, h])
      have hsr : ∀ s ∈ r.sizes, 0 ≤ s ∧ s < 2 ^ 63 :=
        fun s h => hsz s (by simp [Descr.sizes, h])
      have hs0 := hsz sz (by simp [Descr.sizes])
      obtain ⟨c, tl, htl, hcd⟩ := l.text_head hnf.1 hml
      have htext : (Descr.split k sz l r).text ++ rest =
          (if k = splitVerticalPanelKind then '|' else '_') ::
            (fmtInt sz ++ c :: (tl ++ (r.text ++ rest))) := by
        simp [Descr.text, htl]
      obtain ⟨hat, hdr⟩ := fmtInt_roundtrip sz hs0.1 hs0.2 c hcd (tl ++ (r.text ++ rest))
      have htag : ((if k = splitVerticalPanelKind then '|' else '_' : Char) = '_' ∨
          (if k = splitVerticalPanelKind then '|' else '_' : Char) = '|') := by
        split_ifs <;> simp
      have hkind : (if (if k = splitVerticalPanelKind then '|' else '_' : Char) = '|'
          then splitVerticalPanelKind else splitHorizontalPanelKind) = k := by
        rcases hk2 with rfl | rfl <;> decide
      rw [htext, parse_split_unfold src f _ _ parent st htag, hat, hdr, hkind]
      have hdr2 : c :: (tl ++ (r.text ++ rest)) = l.text ++ (r.text ++ rest) := by
        simp [htl]
      rw [hdr2]
      obtain ⟨st3, q3, hp3, hh3, hf3, hlen3, -, -⟩ :=
        ihl mem0 _ hl0 hnf.1 hsl hml f (by omega) (r.text ++ rest) (some st.mem.length)
          ⟨st.mem ++ [⟨k, sz, 0, none, none, parent, (randomname src st).1, false⟩],
            st.rnd + 8⟩
      simp only [List.length_append, List.length_singleton] at hp3 hh3 hf3 hlen3
      have hg3 : st3.get st.mem.length =
          some ⟨k, sz, 0, none, none, parent, (randomname src st).1, false⟩ := by
        simp only [Store.get]
        rw [hf3 _ (by omega)]
        simp
      rw [hp3]
      simp only [hg3]
      obtain ⟨st5, q5, hp5, hh5, hf5, hlen5, -, -⟩ :=
        ihr mem0 _ hr0 hnf.2 hsr hmr f (by omega) rest (some st.mem.length)
          (st3.put st.mem.length ⟨k, sz, 0, some (st.mem.length + 1), none, parent,
            (randomname src st).1, false⟩)
      have hl4 : (st3.put st.mem.length ⟨k, sz, 0, some (st.mem.length + 1), none, parent,
            (randomname src st).1, false⟩).mem.length = st3.mem.length := by simp [Store.put]
      rw [hl4] at hp5 hh5 hf5 hlen5
      have hg5 : st5.get st.mem.length = some ⟨k, sz, 0, some (st.mem.length + 1), none,
          parent, (randomname src st).1, false⟩ := by
        simp only [Store.get]
        rw [hf5 _ (by omega), getElem?_put_self _ _ _ (by omega)]
      rw [hp5]
      simp only [hg5]
      refine ⟨st5.put st.mem.length ⟨k, sz, 0, some (st.mem.length + 1), some st3.mem.length,
        parent, (randomname src st).1, false⟩, ⟨k, sz, 0, some (st.mem.length + 1),
        some st3.mem.length, parent, (randomname src st).1, false⟩, rfl, ?_, ?_, ?_, ?_, ?_⟩
      · refine ⟨_, _, rfl, le_refl _, getElem?_put_self _ _ _ (by omega), hk2, rfl, rfl, ?_, ?_⟩
        · refine HoldsFrom.frame_from st3.mem _ (st.mem.length + 1) _ (by omega) ?_ hh3
          intro a ha1 ha2
          rw [getElem?_put_ne _ _ _ _ (by omega), hf5 a ha2, getElem?_put_ne _ _ _ _ (by omega)]
        · refine HoldsFrom.frame_from st5.mem _ st3.mem.length _ (by omega) ?_ hh5
          intro a ha1 ha2
          rw [getElem?_put_ne _ _ _ _ (by omega)]
      · intro a ha
        rw [getElem?_put_ne _ _ _ _ (by omega), hf5 a (by omega),
          getElem?_put_ne _ _ _ _ (by omega), hf3 a (by omega)]
        simp [List.getElem?_append_left, ha]
      · simp only [Store.put, List.length_set]; omega
      · exact getElem?_put_self _ _ _ (by omega)
      · rfl
  | full c ih =>
    intro mem0 p0 _ hnf
    exact hnf.elim

/-- One step of `parsePanelDescr` on the byte `0`. -/
theorem parse_zero_unfold (src : Nat → Nat) (fuel : Nat) (tl : List Char)
    (parent : Option Nat) (st : Store) :
    parsePanelDescrAux src (fuel + 1) ('0' :: tl) parent st =
      match parsePanelDescrAux src fuel tl (some st.mem.length)
          ⟨st.mem ++ [⟨panelKind.zero, 0, 0, none, none, parent, (randomname src st).1, false⟩],
            st.rnd + 8⟩ with
      | none => none
      | some (c0, rest, st3) =>
        match st3.get st.mem.length with
        | none => none
        | some n => some (st.mem.length, rest, st3.put st.mem.length
            { n with child0 := some c0 }) := by
  simp only [parsePanelDescrAux, if_true, randomname, Store.alloc]

/-- `parsePanelDescr` builds its tree at the next free addresses and leaves
the panels that exist alone. -/
theorem parse_frame (src : Nat → Nat) :
    ∀ (fuel : Nat) (inp : List Char) (parent : Option Nat) (st : Store) (q : Nat)
      (rest : List Char) (st1 : Store),
      parsePanelDescrAux src fuel inp parent st = some (q, rest, st1) →
      q = st.mem.length ∧ st.mem.length < st1.mem.length ∧
        (∀ a, a < st.mem.length → st1.mem[a]? = st.mem[a]?) ∧
        ∃ qn, st1.mem[q]? = some qn ∧ qn.parent = parent := by
  intro fuel
  induction fuel with
  | zero => intro inp parent st q rest st1 h; simp [parsePanelDescrAux] at h
  | succ f ih =>
    intro inp parent st q rest st1 h
    cases inp with
    | nil => simp [parsePanelDescrAux] at h
    | cons c tl =>
      by_cases h0 : c = '0'
      · subst h0
        rw [parse_zero_unfold] at h
        split at h
        · simp at h
        · rename_i c0 rest0 st3 hp3
          obtain ⟨-, hl3, hf3, -⟩ := ih _ _ _ _ _ _ hp3
          simp only [List.length_append, List.length_singleton] at hl3 hf3
          split at h
          · simp at h
          · rename_i n hn
            simp only [Option.some.injEq, Prod.mk.injEq] at h
            obtain ⟨rfl, rfl, rfl⟩ := h
            have hn1 : n = ⟨panelKind.zero, 0, 0, none, none, parent, (randomname src st).1,
                false⟩ := by
              simp only [Store.get] at hn
              rw [hf3 _ (by omega)] at hn
              simpa using hn.symm
            refine ⟨rfl, by simp only [Store.put, List.length_set]; omega, ?_,
              _, getElem?_put_self _ _ _ (by omega), by rw [hn1]⟩
            intro a ha
            rw [getElem?_put_ne _ _ _ _ (by omega), hf3 a (by omega)]
            simp [List.getElem?_append_left, ha]
      · by_cases h1 : c = '_' ∨ c = '|'
        · rw [parse_split_unfold src f c tl parent st h1] at h
          split at h
          · simp at h
          · rename_i c0 rest0 st3 hp3
            obtain ⟨-, hl3, hf3, -⟩ := ih _ _ _ _ _ _ hp3
            simp only [List.length_append, List.length_singleton] at hl3 hf3
            split at h
            · simp at h
            · rename_i n hn
              split at h
              · simp at h
              · rename_i c1 rest1 st5 hp5
                obtain ⟨-, hl5, hf5, -⟩ := ih _ _ _ _ _ _ hp5
                simp only [Store.put, List.length_set] at hl5 hf5
                split at h
                · simp at h
                · rename_i n5 hn5
                  simp only [Option.some.injEq, Prod.mk.injEq] at h
                  obtain ⟨rfl, rfl, rfl⟩ := h
                  have hn1 : n.parent = parent := by
                    simp only [Store.get] at hn
                    rw [hf3 _ (by omega)] at hn
                    simp only [List.getElem?_concat_length, Option.some.injEq] at hn
                    rw [← hn]
                  have hn2 : n5.parent = parent := by
                    simp only [Store.get] at hn5
                    rw [hf5 _ (by omega), List.getElem?_set_self (by omega)] at hn5
                    simp only [Option.some.injEq] at hn5
                    rw [← hn5]; exact hn1
                  refine ⟨rfl, by simp only [Store.put, List.length_set]; omega, ?_,
                    _, getElem?_put_self _ _ _ (by omega), hn2⟩
                  intro a ha
                  rw [getElem?_put_ne _ _ _ _ (by omega), hf5 a (by omega),
                    List.getElem?_set_ne (by omega), hf3 a (by omega)]
                  simp [List.getElem?_append_left, ha]
        · simp only [parsePanelDescrAux, h0, if_false, h1, randomname, Store.alloc,
            Option.some.injEq, Prod.mk.injEq] at h
          obtain ⟨rfl, rfl, rfl⟩ := h
          refine ⟨rfl, by simp, ?_, _, List.getElem?_concat_length _ _, rfl⟩
          intro a ha
          simp [List.getElem?_append_left, ha]

/-! ### The claims on the grammar -/

/-- C10: for a tree `T` of splits (sizes from `0` up to `2^63 - 1`) and leaves
(modes in the catalogue), `serialize` writes a description `s` that starts with
a byte that is not a digit (so the digits of a size end at the first byte of
the first child), and for every string `rest` and parent pointer,
`parsePanelDescr(s + rest, parent)` succeeds with a tree of the same kinds,
sizes and modes as `T` under that parent, and with exactly `rest` left over. -/
theorem parse_undoes_serialize (src : Nat → Nat) (mem : List panel) (p : Option Nat)
    (d : Descr) (h : Holds mem p d) (hnf : d.noFull)
    (hsz : ∀ s ∈ d.sizes, 0 ≤ s ∧ s < 2 ^ 63) (hm : ∀ m ∈ d.modes, modeOk m)
    (fuel : Nat) (hf : d.depth ≤ fuel) :
    ∃ s, panel.serialize mem fuel p [] = some (.ok s) ∧
      (∃ c tl, s = c :: tl ∧ isDigit c = false) ∧
      ∀ (rest : List Char) (parent : Option Nat) (st : Store),
        ∃ q st1 qn, parsePanelDescr src (s ++ rest) parent st = some (q, rest, st1) ∧
          Holds st1.mem (some q) d ∧ st1.get q = some qn ∧ qn.parent = parent := by
  refine ⟨d.text, ?_, d.text_head hnf hm, ?_⟩
  · rw [serialize_holds mem d p h fuel hf [], if_pos hm]
    simp
  · intro rest parent st
    have hlen : d.depth ≤ (d.text ++ rest).length + 1 := by
      have := d.depth_le_text hm
      simp only [List.length_append]
      omega
    obtain ⟨st1, qn, h1, h2, -, -, h5, h6⟩ :=
      parse_text src d mem p h hnf hsz hm _ hlen rest parent st
    exact ⟨st.mem.length, st1, qn, h1, h2.holds, h5, h6⟩

theorem parse_undoes_serialize_witness :
    Holds threeLeaves.mem (some 0)
      (.split splitHorizontalPanelKind 0
        (.split splitVerticalPanelKind 0 (.leaf 0) (.leaf 0)) (.leaf 0)) ∧
    ∃ s, panel.serialize threeLeaves.mem 3 (some 0) [] = some (.ok s) ∧
      (∃ c tl, s = c :: tl ∧ isDigit c = false) ∧
      ∀ (rest : List Char) (parent : Option Nat) (st : Store),
        ∃ q st1 qn, parsePanelDescr exampleSrc (s ++ rest) parent st = some (q, rest, st1) ∧
          Holds st1.mem (some q)
            (.split splitHorizontalPanelKind 0
              (.split splitVerticalPanelKind 0 (.leaf 0) (.leaf 0)) (.leaf 0)) ∧
          st1.get q = some qn ∧ qn.parent = parent :=
  have h : Holds threeLeaves.mem (some 0)
      (.split splitHorizontalPanelKind 0
        (.split splitVerticalPanelKind 0 (.leaf 0) (.leaf 0)) (.leaf 0)) :=
    ⟨0, _, rfl, rfl, Or.inl rfl, rfl, rfl,
      ⟨3, _, rfl, rfl, Or.inr rfl, rfl, rfl, ⟨1, _, rfl, rfl, rfl, rfl⟩,
        ⟨4, _, rfl, rfl, rfl, rfl⟩⟩,
      ⟨2, _, rfl, rfl, rfl, rfl⟩⟩
  ⟨h, parse_undoes_serialize exampleSrc threeLeaves.mem (some 0) _ h ⟨⟨trivial, trivial⟩, trivial⟩
    (by decide) (by decide) 3 (by decide)⟩

/-- C1 (what the code does): for every tree with a `Full` root over a tree of
splits (sizes from `0` up to `2^63 - 1`) and leaves (modes in the catalogue),
`String()` returns a description `s` (not empty) and a nil error, and
`parsePanelDescr(s, nil)` succeeds with rest `""`; but the root it builds has
the zero kind, so `String()` of the parsed tree returns the empty string and a
nil error, not `s`. -/
theorem roundtrip_full_root_fails (src : Nat → Nat) (mem : List panel) (p : Option Nat)
    (d : Descr) (h : Holds mem p (.full d)) (hnf : d.noFull)
    (hsz : ∀ s ∈ d.sizes, 0 ≤ s ∧ s < 2 ^ 63) (hm : ∀ m ∈ d.modes, modeOk m)
    (fuel : Nat) (hf : (Descr.full d).depth ≤ fuel) :
    ∃ s, panel.String mem fuel p = some (s, none) ∧ s ≠ [] ∧
      ∀ st : Store, ∃ q st1, parsePanelDescr src s none st = some (q, [], st1) ∧
        ∀ fuel1, 0 < fuel1 → panel.String st1.mem fuel1 (some q) = some ([], none) := by
  have hm1 : ∀ m ∈ (Descr.full d).modes, modeOk m := hm
  refine ⟨'0' :: d.text, ?_, by simp, ?_⟩
  · have hs := serialize_holds mem (.full d) p h fuel hf []
    rw [if_pos hm1] at hs
    simp [panel.String, hs, Descr.text]
  · intro st
    obtain ⟨a0, n0, rfl, hn0, -, hc0⟩ := h
    have hlen : d.depth ≤ (d.text ++ []).length + 1 := by
      have := d.depth_le_text hm
      simp only [List.length_append]
      omega
    obtain ⟨st3, qn, hp3, -, hf3, hl3, -, -⟩ :=
      parse_text src d mem _ hc0 hnf hsz hm _ hlen [] (some st.mem.length)
        ⟨st.mem ++ [⟨panelKind.zero, 0, 0, none, none, none, (randomname src st).1, false⟩],
          st.rnd + 8⟩
    simp only [List.length_append, List.length_singleton, List.append_nil] at hp3 hf3 hl3
    have hg3 : st3.get st.mem.length =
        some ⟨panelKind.zero, 0, 0, none, none, none, (randomname src st).1, false⟩ := by
      simp only [Store.get]
      rw [hf3 _ (by omega)]
      simp
    refine ⟨st.mem.length, st3.put st.mem.length ⟨panelKind.zero, 0, 0,
      some (st.mem.length + 1), none, none, (randomname src st).1, false⟩, ?_, ?_⟩
    · simp only [parsePanelDescr, List.length_cons]
      rw [parse_zero_unfold, hp3]
      simp only [hg3]
    · intro fuel1 hf1
      obtain ⟨k, rfl⟩ := Nat.exists_eq_succ_of_ne_zero (Nat.pos_iff_ne_zero.mp hf1)
      have hlook := getElem?_put_self st3 st.mem.length ⟨panelKind.zero, 0, 0,
        some (st.mem.length + 1), none, none, (randomname src st).1, false⟩ (by omega)
      simp only [panel.String, panel.serialize, hlook]

theorem roundtrip_full_root_fails_witness :
    Holds exampleTree.mem (some 0) (.full (.leaf 0)) ∧
    panel.String exampleTree.mem 2 (some 0) = some ("0C".toList, none) ∧
    ∃ s, panel.String exampleTree.mem 2 (some 0) = some (s, none) ∧ s ≠ [] ∧
      ∀ st : Store, ∃ q st1, parsePanelDescr exampleSrc s none st = some (q, [], st1) ∧
        ∀ fuel1, 0 < fuel1 → panel.String st1.mem fuel1 (some q) = some ([], none) :=
  have h : Holds exampleTree.mem (some 0) (.full (.leaf 0)) :=
    ⟨0, _, rfl, rfl, rfl, ⟨1, _, rfl, rfl, rfl, rfl⟩⟩
  ⟨h, by decide, roundtrip_full_root_fails exampleSrc exampleTree.mem (some 0) (.leaf 0) h trivial
    (by decide) (by decide) 2 (by decide)⟩

/-- C2 (what the code does): whenever `parsePanelDescr("0" + s, parent)`
returns, the node it returns has the child `child[0]` (which points back to
it) and no `child[1]`, but its kind is the zero value `""` of `panelKind`, not
`Full`: the local `kind` is never set in the case of the byte `0`. -/
theorem parse_zero_tag_kind (src : Nat → Nat) (s : List Char) (parent : Option Nat)
    (st : Store) (q : Nat) (rest : List Char) (st1 : Store)
    (h : parsePanelDescr src ('0' :: s) parent st = some (q, rest, st1)) :
    ∃ n c cn, st1.get q = some n ∧ n.kind = panelKind.zero ∧ n.kind ≠ fullPanelKind ∧
      n.parent = parent ∧ n.child0 = some c ∧ n.child1 = none ∧
      st1.get c = some cn ∧ cn.parent = some q := by
  simp only [parsePanelDescr, List.length_cons] at h
  rw [parse_zero_unfold] at h
  split at h
  · simp at h
  · rename_i c0 rest0 st3 hp3
    obtain ⟨hc0, hl3, hf3, cn, hcn, hcp⟩ := parse_frame src _ _ _ _ _ _ _ hp3
    simp only [List.length_append, List.length_singleton] at hc0 hl3 hf3
    split at h
    · simp at h
    · rename_i n hn
      simp only [Option.some.injEq, Prod.mk.injEq] at h
      obtain ⟨rfl, rfl, rfl⟩ := h
      have hn1 : n = ⟨panelKind.zero, 0, 0, none, none, parent, (randomname src st).1,
          false⟩ := by
        simp only [Store.get] at hn
        rw [hf3 _ (by omega)] at hn
        simpa using hn.symm
      subst hn1
      refine ⟨_, c0, cn, getElem?_put_self _ _ _ (by omega), rfl, by simp, rfl, rfl, rfl, ?_,
        hcp⟩
      simp only [Store.get]
      rw [getElem?_put_ne _ _ _ _ (by omega)]
      exact hcn

theorem parse_zero_tag_kind_witness :
    parsePanelDescr exampleSrc ('0' :: "C".toList) none Store.empty =
      some (0, [], ⟨[⟨panelKind.zero, 0, 0, some 1, none, none, "00000000".toList, false⟩,
        ⟨infoPanelKind, 0, 0, none, none, some 0, "00000000".toList, false⟩], 16⟩) ∧
    ∃ n c cn,
      Store.get ⟨[⟨panelKind.zero, 0, 0, some 1, none, none, "00000000".toList, false⟩,
        ⟨infoPanelKind, 0, 0, none, none, some 0, "00000000".toList, false⟩], 16⟩ 0 = some n ∧
      n.kind = panelKind.zero ∧ n.kind ≠ fullPanelKind ∧
      n.parent = none ∧ n.child0 = some c ∧ n.child1 = none ∧
      Store.get ⟨[⟨panelKind.zero, 0, 0, some 1, none, none, "00000000".toList, false⟩,
        ⟨infoPanelKind, 0, 0, none, none, some 0, "00000000".toList, false⟩], 16⟩ c =
        some cn ∧ cn.parent = some 0 :=
  ⟨by decide, parse_zero_tag_kind exampleSrc "C".toList none Store.empty 0 [] _ (by decide)⟩

/-- C9 (as stated) fails: in the tree parsed from `0C` the root has the zero
kind, so `split` on the leaf `1` splices the new split `2` (of the leaves `1`
and `3`) below the root, and `String()` of the root is the empty string after
the split (not `0_0CC`) and after closing the new leaf `3` (not `0C`), while
the leaf `1` is again the child of the root, with its name.  And below a root
that is `Full` (the default tree), `split` turns the root itself into the
split, so the description after the split is `_0CC`, without the byte `0`. -/
theorem example_scenario_counterexample :
    (parsePanelDescr exampleSrc "0C".toList none Store.empty).map (fun r => (r.1, r.2.1)) =
      some (0, []) ∧
    ((parsePanelDescr exampleSrc "0C".toList none Store.empty).bind
      (fun r => panel.split exampleSrc r.2.2 1 splitHorizontalPanelKind)).bind
      (fun st => panel.String st.mem st.mem.length (some 0)) = some ([], none) ∧
    ((parsePanelDescr exampleSrc "0C".toList none Store.empty).bind
      (fun r => panel.split exampleSrc r.2.2 1 splitHorizontalPanelKind)).map
      (fun st => st.mem.map (fun n => n.kind)) =
      some [panelKind.zero, infoPanelKind, splitHorizontalPanelKind, infoPanelKind] ∧
    ((parsePanelDescr exampleSrc "0C".toList none Store.empty).bind
      (fun r => panel.split exampleSrc r.2.2 1 splitHorizontalPanelKind)).map
      (fun st => st.mem.map (fun n => n.child0)) = some [some 2, none, some 1, none] ∧
    ((parsePanelDescr exampleSrc "0C".toList none Store.empty).bind
      (fun r => panel.split exampleSrc r.2.2 1 splitHorizontalPanelKind)).map
      (fun st => st.mem.map (fun n => n.child1)) = some [none, none, some 3, none] ∧
    (((parsePanelDescr exampleSrc "0C".toList none Store.empty).bind
      (fun r => panel.split exampleSrc r.2.2 1 splitHorizontalPanelKind)).bind
      (fun st => panel.closeMyself st 3)).bind
      (fun st => panel.String st.mem st.mem.length (some 0)) = some ([], none) ∧
    ((((parsePanelDescr exampleSrc "0C".toList none Store.empty).bind
      (fun r => panel.split exampleSrc r.2.2 1 splitHorizontalPanelKind)).bind
      (fun st => panel.closeMyself st 3)).bind (fun st => st.get 0)).map
      (fun n => n.child0) = some (some 1) ∧
    ((((parsePanelDescr exampleSrc "0C".toList none Store.empty).bind
      (fun r => panel.split exampleSrc r.2.2 1 splitHorizontalPanelKind)).bind
      (fun st => panel.closeMyself st 3)).bind (fun st => st.get 1)).map
      (fun n => n.name) =
      ((parsePanelDescr exampleSrc "0C".toList none Store.empty).bind
        (fun r => r.2.2.get 1)).map (fun n => n.name) ∧
    (panel.split exampleSrc exampleTree 1 splitHorizontalPanelKind).bind
      (fun st => panel.String st.mem st.mem.length (some 0)) = some ("_0CC".toList, none) := by
  decide

/-- C9 (amended): the scenario on the single-leaf default tree, a `Full` root
`0` over the leaf `1` of mode `Command`, whose description is `0C`.  After
`split` (horizontal) on the leaf the root itself is the horizontal split of the
leaf `1` and the new leaf `2`, both of mode `Command`, and `String()` of the
root returns `_0CC` and a nil error.  After `closeMyself` on the new leaf the
root is `Full` again, `String()` returns `0C` and a nil error, and the only
leaf is the leaf `1`, with its name. -/
theorem example_scenario_default_tree :
    panel.String exampleTree.mem exampleTree.mem.length (some 0) = some ("0C".toList, none) ∧
    panel.split exampleSrc exampleTree 1 splitHorizontalPanelKind = some twoLeaves ∧
    panel.String twoLeaves.mem twoLeaves.mem.length (some 0) = some ("_0CC".toList, none) ∧
    (twoLeaves.get 0).map (fun n => n.kind) = some splitHorizontalPanelKind ∧
    leavesOf twoLeaves 0 = [1, 2] ∧
    (twoLeaves.get 1).map (fun n => n.infoMode) = some 0 ∧
    (twoLeaves.get 2).map (fun n => n.infoMode) = some 0 ∧
    (panel.closeMyself twoLeaves 2).bind
      (fun st => panel.String st.mem st.mem.length (some 0)) = some ("0C".toList, none) ∧
    (panel.closeMyself twoLeaves 2).map (fun st => leavesOf st 0) = some [1] ∧
    ((panel.closeMyself twoLeaves 2).bind (fun st => st.get 0)).map (fun n => n.kind) =
      some fullPanelKind ∧
    ((panel.closeMyself twoLeaves 2).bind (fun st => st.get 1)).map (fun n => n.name) =
      (exampleTree.get 1).map (fun n => n.name) := by
  decide

end Gdlv
